import Mathlib

/-!
Verification of the heap_4 allocator (src/src/MemMang/heap_4.cpp) of the
freertos-gcc-cm7 repository.

Shallow embedding conventions:
* The target platform is ARM Cortex-M7: `size_t` and pointers are 32 bits,
  `portBYTE_ALIGNMENT = 8`, `portBYTE_ALIGNMENT_MASK = 7`,
  `sizeof(freertos::BlockLink_t) = 8` (a 4-byte pointer plus a 4-byte size),
  `configTOTAL_HEAP_SIZE = 200 * 1024` (from include/FreeRTOSConfig.h), and
  `portMAX_DELAY = 0xFFFFFFFF` (configUSE_16_BIT_TICKS is 0).
* Machine integers are `Nat`; the wrapping operations `add32`/`sub32` insert
  the `% 2^32` reduction exactly where the C `size_t` arithmetic can wrap.
* A heap block header is represented by its address inside the buffer and its
  `_size` field.  The free list (threaded through `_next_free_block` pointers
  in C) is represented by the Lean list of its nodes in link order, starting
  with the node after the `xStart` sentinel and ending with the `pxEnd`
  sentinel.  The `xStart` sentinel lives inside the `Heap4` object, outside
  the managed buffer and below it, so it is modelled as a node at address 0
  with size 0.
* Headers of allocated blocks are not reachable from the free list; the
  bookkeeping list `allocated` models exactly those header words of the
  buffer that `vPortFree` reads back.
-/

namespace FreertosHeap4

/-- Two to the 32nd power, the number of values of a 32-bit `size_t`. -/
def size_t_card : Nat := 4294967296

/-- Wrapping 32-bit addition, modelling `size_t` addition. -/
def add32 (a b : Nat) : Nat := (a + b) % size_t_card

/-- Wrapping 32-bit subtraction, modelling `size_t` subtraction for `b < 2^32`. -/
def sub32 (a b : Nat) : Nat := (size_t_card + a - b) % size_t_card

/-- portBYTE_ALIGNMENT for the Cortex-M7 port. -/
def portBYTE_ALIGNMENT : Nat := 8

/-- portBYTE_ALIGNMENT_MASK for the Cortex-M7 port. -/
def portBYTE_ALIGNMENT_MASK : Nat := 7

/-- The value of `~((size_t)portBYTE_ALIGNMENT_MASK)` on a 32-bit platform. -/
def alignDownMask32 : Nat := 4294967288

/-- Bytes per `size_t` on the 32-bit platform. -/
def sizeof_size_t : Nat := 4

/-- The `_bit_count_per_byte` constant of heap_4.cpp. -/
def bit_count_per_byte : Nat := 8

/-- The value of `sizeof(freertos::BlockLink_t)`: a 4-byte pointer plus a 4-byte size. -/
def sizeof_BlockLink_t : Nat := 8

/-- The `_size_of_heap_block_linklist_element` constant of heap_4.cpp
(the leading underscore of the C name is dropped):
`(sizeof(BlockLink_t) + (portBYTE_ALIGNMENT - 1)) & ~portBYTE_ALIGNMENT_MASK`. -/
def size_of_heap_block_linklist_element : Nat :=
  (sizeof_BlockLink_t + (portBYTE_ALIGNMENT - 1)) &&& alignDownMask32

/-- The `_heap_minimum_block_size` constant of heap_4.cpp:
`size_of_heap_block_linklist_element << 1`. -/
def heap_minimum_block_size : Nat := size_of_heap_block_linklist_element <<< 1

/-- The `heapSIZE_MAX` constant of heap_4.cpp: the largest `size_t` value. -/
def heapSIZE_MAX : Nat := size_t_card - 1

/-- The `heapBLOCK_ALLOCATED_BITMASK` constant of heap_4.cpp:
`((size_t)1) << ((sizeof(size_t) * 8) - 1)`. -/
def heapBLOCK_ALLOCATED_BITMASK : Nat :=
  1 <<< (sizeof_size_t * bit_count_per_byte - 1)

/-- The `heapMULTIPLY_WILL_OVERFLOW` check of heap_4.cpp. -/
def heapMULTIPLY_WILL_OVERFLOW (a b : Nat) : Bool :=
  decide (a > 0) && decide (b > heapSIZE_MAX / a)

/-- The `heapADD_WILL_OVERFLOW` check of heap_4.cpp. -/
def heapADD_WILL_OVERFLOW (a b : Nat) : Bool :=
  decide (a > heapSIZE_MAX - b)

/-- The `heapBLOCK_SIZE_IS_VALID` check of heap_4.cpp. -/
def heapBLOCK_SIZE_IS_VALID (xBlockSize : Nat) : Bool :=
  decide (xBlockSize &&& heapBLOCK_ALLOCATED_BITMASK = 0)

/-- The `configTOTAL_HEAP_SIZE` configuration constant (FreeRTOSConfig.h). -/
def configTOTAL_HEAP_SIZE : Nat := 200 * 1024

/-- The `portMAX_DELAY` constant: all-ones of the 32-bit tick type
(configUSE_16_BIT_TICKS is 0 in FreeRTOSConfig.h). -/
def portMAX_DELAY : Nat := 4294967295

/-- A heap block header (`freertos::BlockLink_t`), identified by the address
of the header inside the buffer together with its `_size` field.  The
`_next_free_block` pointer of the C structure is represented by the order of
the containing list. -/
structure BlockLink_t where
  addr : Nat
  size : Nat
deriving DecidableEq, Repr

/-- The `freertos::Heap4` object state.  `freeList` is the chain of nodes
reachable from `xStart._next_free_block` in link order; its final node is the
`pxEnd` sentinel (whose `_next_free_block` is NULL).  `allocated` models the
headers of the currently allocated blocks (which carry the allocation bit in
their stored `_size` and a NULL `_next_free_block`). -/
structure Heap4 where
  freeList : List BlockLink_t
  pxEndAddr : Nat
  allocated : List BlockLink_t
  xFreeBytesRemaining : Nat
  xMinimumEverFreeBytesRemaining : Nat
  xNumberOfSuccessfulAllocations : Nat
  xNumberOfSuccessfulFrees : Nat
deriving DecidableEq, Repr

/-- The merge step of `prvInsertBlockIntoFreeList` once the scan loop has
stopped: `it` is the iterator node, `next` the node `it._next_free_block`
points at, `rest` the chain after `next`, and `ins` the block being inserted.
Mirrors heap_4.cpp lines 363-410: merge with the predecessor when contiguous,
then with the successor (unless the successor is the `pxEnd` sentinel at
address `e`), then relink. -/
def mergeStep (it next : BlockLink_t) (rest : List BlockLink_t)
    (ins : BlockLink_t) (e : Nat) : List BlockLink_t :=
  if it.addr + it.size = ins.addr then
    let blk : BlockLink_t := ⟨it.addr, add32 it.size ins.size⟩
    if blk.addr + blk.size = next.addr then
      if next.addr ≠ e then
        ⟨blk.addr, add32 blk.size next.size⟩ :: rest
      else
        blk :: next :: rest
    else
      blk :: next :: rest
  else
    if ins.addr + ins.size = next.addr then
      if next.addr ≠ e then
        it :: ⟨ins.addr, add32 ins.size next.size⟩ :: rest
      else
        it :: ins :: next :: rest
    else
      it :: ins :: next :: rest

/-- The scan loop of `prvInsertBlockIntoFreeList` (heap_4.cpp line 358):
advance the iterator while the next node's address is below the inserted
block's address, then perform the merge step.  The `[]` case is unreachable
in well-formed states because the list always ends with the `pxEnd` sentinel,
whose address exceeds the address of any block being inserted. -/
def insertLoop (it : BlockLink_t) (l : List BlockLink_t)
    (ins : BlockLink_t) (e : Nat) : List BlockLink_t :=
  match l with
  | [] => it :: [ins]
  | next :: rest =>
    if next.addr < ins.addr then
      it :: insertLoop next rest ins e
    else
      mergeStep it next rest ins e

/-- The `prvInsertBlockIntoFreeList` function of heap_4.cpp.  The iterator
starts at the `xStart` sentinel (address 0, size 0, outside the buffer); the
head of the loop's result is that sentinel, so the new free list is the tail. -/
def prvInsertBlockIntoFreeList (h : Heap4) (ins : BlockLink_t) : Heap4 :=
  { h with freeList := (insertLoop ⟨0, 0⟩ h.freeList ins h.pxEndAddr).tail }

/-- The first-fit walk of `pvPortMalloc` (heap_4.cpp lines 159-166): walk
while the block is too small and its `_next_free_block` is not NULL (the
`pxEnd` sentinel is the only node with a NULL link).  Returns the traversed
prefix together with the node the walk stopped at and the chain after it. -/
def mallocFind (l : List BlockLink_t) (w : Nat) :
    List BlockLink_t × Option (BlockLink_t × List BlockLink_t) :=
  match l with
  | [] => ([], none)
  | b :: rest =>
    if b.size < w ∧ rest ≠ [] then
      let r := mallocFind rest w
      (b :: r.1, r.2)
    else
      ([], some (b, rest))

/-- The request-size adjustment of `pvPortMalloc` (heap_4.cpp lines 128-147):
for a non-zero request, add the aligned header size plus alignment padding,
forcing the size to 0 when the addition would overflow. -/
def xAdjustedSize (xWantedSize : Nat) : Nat :=
  if 0 < xWantedSize then
    let xAdditionalRequiredSize :=
      size_of_heap_block_linklist_element + portBYTE_ALIGNMENT -
        (xWantedSize &&& portBYTE_ALIGNMENT_MASK)
    if heapADD_WILL_OVERFLOW xWantedSize xAdditionalRequiredSize then 0
    else xWantedSize + xAdditionalRequiredSize
  else xWantedSize

/-- The allocation core of `pvPortMalloc` (heap_4.cpp lines 149-236), applied
to the already adjusted size: validity check, fast-path rejection, first-fit
walk, optional split with re-insertion of the remainder, counter updates, and
marking of the returned block.  Returns the new state and the returned
pointer (the address one header past the block header), or `none`. -/
def mallocInner (h : Heap4) (xWantedSize : Nat) : Heap4 × Option Nat :=
  if heapBLOCK_SIZE_IS_VALID xWantedSize then
    if 0 < xWantedSize ∧ xWantedSize ≤ h.xFreeBytesRemaining then
      match mallocFind h.freeList xWantedSize with
      | (pre, some (pxBlock, rest)) =>
        if pxBlock.addr ≠ h.pxEndAddr then
          let pvReturn := pxBlock.addr + size_of_heap_block_linklist_element
          let listAndSize :=
            if heap_minimum_block_size < sub32 pxBlock.size xWantedSize then
              ((prvInsertBlockIntoFreeList { h with freeList := pre ++ rest }
                  ⟨pxBlock.addr + xWantedSize,
                   sub32 pxBlock.size xWantedSize⟩).freeList,
               xWantedSize)
            else
              (pre ++ rest, pxBlock.size)
          let newFree := sub32 h.xFreeBytesRemaining listAndSize.2
          ({ h with
              freeList := listAndSize.1,
              xFreeBytesRemaining := newFree,
              xMinimumEverFreeBytesRemaining :=
                if newFree < h.xMinimumEverFreeBytesRemaining then newFree
                else h.xMinimumEverFreeBytesRemaining,
              allocated :=
                ⟨pxBlock.addr, listAndSize.2 ||| heapBLOCK_ALLOCATED_BITMASK⟩
                  :: h.allocated,
              xNumberOfSuccessfulAllocations :=
                add32 h.xNumberOfSuccessfulAllocations 1 },
           some pvReturn)
        else (h, none)
      | (_, none) => (h, none)
    else (h, none)
  else (h, none)

/-- The `pvPortMalloc` function of heap_4.cpp: size adjustment followed by the
allocation core.  (The heap is initialised by the `Heap4` constructor, so the
`pxEnd == NULL` branch of the C code is dead.) -/
def pvPortMalloc (h : Heap4) (xWantedSize : Nat) : Heap4 × Option Nat :=
  mallocInner h (xAdjustedSize xWantedSize)

/-- Lookup of the stored `_size` of the allocated-block header at a given
address, modelling the memory read `pxLink->_size` of `vPortFree`. -/
def lookupAlloc (l : List BlockLink_t) (a : Nat) : Option Nat :=
  match l with
  | [] => none
  | b :: rest => if b.addr = a then some b.size else lookupAlloc rest a

/-- Removal of the allocated-block header at a given address from the
bookkeeping list (the freed header stops being an allocated header). -/
def removeAlloc (l : List BlockLink_t) (a : Nat) : List BlockLink_t :=
  match l with
  | [] => []
  | b :: rest => if b.addr = a then rest else b :: removeAlloc rest a

/-- The `vPortFree` function of heap_4.cpp: for a non-NULL pointer, step back
one header size, check the allocation bit (allocated headers always carry a
NULL `_next_free_block`, so that second assertion holds whenever the lookup
succeeds), clear the bit, add the size back to `xFreeBytesRemaining`, insert
the block into the free list and count the free.  A pointer whose header is
not a live allocated header is undefined behaviour in C (guarded by
`configASSERT`); it is modelled as a no-op. -/
def vPortFree (h : Heap4) (pv : Nat) : Heap4 :=
  if pv ≠ 0 then
    let hdrAddr := pv - size_of_heap_block_linklist_element
    match lookupAlloc h.allocated hdrAddr with
    | some s =>
      if s &&& heapBLOCK_ALLOCATED_BITMASK ≠ 0 then
        let s' := s &&& (heapBLOCK_ALLOCATED_BITMASK - 1)
        let h1 : Heap4 :=
          { h with
              allocated := removeAlloc h.allocated hdrAddr,
              xFreeBytesRemaining := add32 h.xFreeBytesRemaining s' }
        let h2 := prvInsertBlockIntoFreeList h1 ⟨hdrAddr, s'⟩
        { h2 with xNumberOfSuccessfulFrees := add32 h2.xNumberOfSuccessfulFrees 1 }
      else h
    | none => h
  else h

/-- The `pvPortCalloc` function of heap_4.cpp.  The third component models
the observable `memset(pv, 0, xNum * xSize)` effect: the start address and
the number of bytes zero-filled, or `none` when no memset is executed. -/
def pvPortCalloc (h : Heap4) (xNum xSize : Nat) :
    Heap4 × Option Nat × Option (Nat × Nat) :=
  if heapMULTIPLY_WILL_OVERFLOW xNum xSize then
    (h, none, none)
  else
    let r := pvPortMalloc h (xNum * xSize)
    match r.2 with
    | some p => (r.1, some p, some (p, xNum * xSize))
    | none => (r.1, none, none)

/-- The scan loop of `vPortGetHeapStats` (heap_4.cpp lines 428-447): walk the
free list until the `pxEnd` sentinel, counting blocks and tracking the
largest and smallest sizes seen. -/
def statsWalk (l : List BlockLink_t) (e : Nat)
    (xBlocks xMaxSize xMinSize : Nat) : Nat × Nat × Nat :=
  match l with
  | [] => (xBlocks, xMaxSize, xMinSize)
  | b :: rest =>
    if b.addr = e then (xBlocks, xMaxSize, xMinSize)
    else
      statsWalk rest e (xBlocks + 1)
        (if b.size > xMaxSize then b.size else xMaxSize)
        (if b.size < xMinSize then b.size else xMinSize)

/-- The `HeapStats_t` structure filled by `vPortGetHeapStats`. -/
structure HeapStats_t where
  xAvailableHeapSpaceInBytes : Nat
  xSizeOfLargestFreeBlockInBytes : Nat
  xSizeOfSmallestFreeBlockInBytes : Nat
  xNumberOfFreeBlocks : Nat
  xMinimumEverFreeBytesRemaining : Nat
  xNumberOfSuccessfulAllocations : Nat
  xNumberOfSuccessfulFrees : Nat
deriving DecidableEq, Repr

/-- The `vPortGetHeapStats` function of heap_4.cpp.  `xMinSize` starts at
`portMAX_DELAY`, the portable maximum value. -/
def vPortGetHeapStats (h : Heap4) : HeapStats_t :=
  let r := statsWalk h.freeList h.pxEndAddr 0 0 portMAX_DELAY
  { xAvailableHeapSpaceInBytes := h.xFreeBytesRemaining
    xSizeOfLargestFreeBlockInBytes := r.2.1
    xSizeOfSmallestFreeBlockInBytes := r.2.2
    xNumberOfFreeBlocks := r.1
    xMinimumEverFreeBytesRemaining := h.xMinimumEverFreeBytesRemaining
    xNumberOfSuccessfulAllocations := h.xNumberOfSuccessfulAllocations
    xNumberOfSuccessfulFrees := h.xNumberOfSuccessfulFrees }

/-- The aligned start of the buffer computed by the `Heap4` constructor
(heap_4.cpp lines 475-484), for a buffer placed at address `base`. -/
def alignedStart (base : Nat) : Nat :=
  if base &&& portBYTE_ALIGNMENT_MASK ≠ 0 then
    (base + (portBYTE_ALIGNMENT - 1)) &&& alignDownMask32
  else base

/-- The `freertos::Heap4::Heap4()` constructor (heap_4.cpp lines 467-509)
over the static `_ucHeap` buffer of `configTOTAL_HEAP_SIZE` bytes placed at
address `base`: align the start upward, carve the `pxEnd` sentinel out of the
aligned end, and create one free block spanning the rest. -/
def Heap4.construct (base : Nat) : Heap4 :=
  let uxAddress := alignedStart base
  let xTotalHeapSize :=
    if base &&& portBYTE_ALIGNMENT_MASK ≠ 0 then
      configTOTAL_HEAP_SIZE - (uxAddress - base)
    else configTOTAL_HEAP_SIZE
  let pucAlignedHeap := uxAddress
  let endAddr :=
    (pucAlignedHeap + xTotalHeapSize - size_of_heap_block_linklist_element)
      &&& alignDownMask32
  let firstBlockSize := sub32 endAddr pucAlignedHeap
  { freeList := [⟨pucAlignedHeap, firstBlockSize⟩, ⟨endAddr, 0⟩]
    pxEndAddr := endAddr
    allocated := []
    xFreeBytesRemaining := firstBlockSize
    xMinimumEverFreeBytesRemaining := firstBlockSize
    xNumberOfSuccessfulAllocations := 0
    xNumberOfSuccessfulFrees := 0 }

/-- One externally observable mutating call on the heap. -/
inductive HeapOp where
  | malloc (n : Nat)
  | free (p : Nat)
deriving DecidableEq, Repr

/-- The state after one `pvPortMalloc` or `vPortFree` call. -/
def applyOp (h : Heap4) : HeapOp → Heap4
  | .malloc n => (pvPortMalloc h n).1
  | .free p => vPortFree h p

/-- States reachable from a freshly constructed heap by `pvPortMalloc` and
`vPortFree` calls.  `lo` records the aligned start of the managed buffer.
The constructor preconditions say the buffer lies at a positive address and
fits in the 32-bit address space. -/
inductive Reachable : Nat → Heap4 → Prop where
  | init (base : Nat) (hpos : 0 < base)
      (hfit : base + configTOTAL_HEAP_SIZE ≤ size_t_card) :
      Reachable (alignedStart base) (Heap4.construct base)
  | step (lo : Nat) (h : Heap4) (op : HeapOp) :
      Reachable lo h → Reachable lo (applyOp h op)

/-! ### Arithmetic and bit-level bridge lemmas -/

theorem add32_eq {a b : Nat} (h : a + b < size_t_card) : add32 a b = a + b :=
  Nat.mod_eq_of_lt h

theorem sub32_eq {a b : Nat} (hb : b ≤ a) (ha : a < size_t_card) :
    sub32 a b = a - b := by
  unfold sub32
  rw [Nat.add_sub_assoc hb, Nat.add_mod_left]
  exact Nat.mod_eq_of_lt (by omega)

theorem and_seven_eq_mod (y : Nat) : y &&& 7 = y % 8 := by
  have h := Nat.and_pow_two_sub_one_eq_mod y 3
  norm_num at h
  exact h

theorem and_alignDownMask32_eq (y : Nat) :
    y &&& alignDownMask32 = y / 2 ^ 3 % 2 ^ 29 * 2 ^ 3 := by
  have hm : alignDownMask32 = (2 ^ 29 - 1) <<< 3 := by decide
  have hr : y / 2 ^ 3 % 2 ^ 29 * 2 ^ 3 = (y >>> 3 % 2 ^ 29) <<< 3 := by
    simp [Nat.shiftRight_eq_div_pow, Nat.shiftLeft_eq]
  rw [hm, hr]
  apply Nat.eq_of_testBit_eq
  intro i
  simp only [Nat.testBit_and, Nat.testBit_shiftLeft, Nat.testBit_mod_two_pow,
    Nat.testBit_shiftRight, Nat.testBit_two_pow_sub_one]
  by_cases h3 : 3 ≤ i
  · have h33 : 3 + (i - 3) = i := by omega
    simp [h3, h33]
    by_cases h29 : i - 3 < 29
    · simp [h29, Bool.and_comm]
    · simp [h29]
  · simp [h3]

theorem and_alignDownMask32_of_lt {y : Nat} (hy : y < size_t_card) :
    y &&& alignDownMask32 = y - y % 8 := by
  rw [and_alignDownMask32_eq]
  have hd : y / 2 ^ 3 < 2 ^ 29 := by
    apply Nat.div_lt_of_lt_mul
    calc y < size_t_card := hy
    _ = 2 ^ 29 * 2 ^ 3 := by decide
  rw [Nat.mod_eq_of_lt hd]
  have := Nat.div_add_mod y 8
  omega

theorem bitmask_eq : heapBLOCK_ALLOCATED_BITMASK = 2 ^ 31 := by decide

theorem valid_iff {w : Nat} (hw : w < size_t_card) :
    heapBLOCK_SIZE_IS_VALID w = true ↔ w < 2 ^ 31 := by
  unfold heapBLOCK_SIZE_IS_VALID
  rw [bitmask_eq]
  simp only [decide_eq_true_eq]
  rw [Nat.and_two_pow]
  constructor
  · intro h
    by_contra hlt
    have hbit : w.testBit 31 = true := by
      rw [Nat.testBit_to_div_mod]
      have h2 : size_t_card = 2 ^ 31 * 2 := by decide
      have h3 : (2 : Nat) ^ 31 = 2147483648 := by norm_num
      have h1 : w / 2147483648 = 1 := by omega
      simp [h3, h1]
    rw [hbit] at h
    simp at h
  · intro h
    rw [Nat.testBit_lt_two_pow h]
    simp

theorem or_bitmask_and_low {m : Nat} (hm : m < 2 ^ 31) :
    (m ||| heapBLOCK_ALLOCATED_BITMASK) &&& (heapBLOCK_ALLOCATED_BITMASK - 1) = m := by
  rw [bitmask_eq]
  rw [Nat.and_distrib_right]
  have h1 : m &&& (2 ^ 31 - 1) = m := Nat.and_pow_two_sub_one_of_lt_two_pow hm
  have h2 : 2 ^ 31 &&& (2 ^ 31 - 1) = 0 := by decide
  rw [h1, h2]
  simp

theorem or_bitmask_and_bit (m : Nat) :
    (m ||| heapBLOCK_ALLOCATED_BITMASK) &&& heapBLOCK_ALLOCATED_BITMASK ≠ 0 := by
  rw [bitmask_eq, Nat.and_two_pow]
  have hb : (m ||| 2 ^ 31).testBit 31 = true := by
    rw [Nat.testBit_or]
    have h31 : Nat.testBit 2147483648 31 = true := by decide
    have h32 : (2 : Nat) ^ 31 = 2147483648 := by norm_num
    simp [h32, h31]
  rw [hb]
  simp

theorem or_bitmask_lt {m : Nat} (hm : m < 2 ^ 31) :
    m ||| heapBLOCK_ALLOCATED_BITMASK < size_t_card := by
  rw [bitmask_eq]
  have : m ||| 2 ^ 31 < 2 ^ 32 :=
    Nat.or_lt_two_pow (lt_trans hm (by norm_num)) (by norm_num)
  calc m ||| 2 ^ 31 < 2 ^ 32 := this
  _ = size_t_card := by decide

theorem xAdjustedSize_zero : xAdjustedSize 0 = 0 := rfl

theorem xAdjustedSize_pos_facts {n : Nat} (h : 0 < xAdjustedSize n) :
    xAdjustedSize n % 8 = 0 ∧ 16 ≤ xAdjustedSize n ∧ xAdjustedSize n ≤ heapSIZE_MAX := by
  have hs : size_of_heap_block_linklist_element = 8 := by decide
  have hp : portBYTE_ALIGNMENT = 8 := rfl
  have hmask : portBYTE_ALIGNMENT_MASK = 7 := rfl
  have hM : heapSIZE_MAX = 4294967295 := by decide
  by_cases hn : 0 < n
  · unfold xAdjustedSize at h ⊢
    rw [hs, hp, hmask, and_seven_eq_mod] at h ⊢
    simp only [hn, if_true] at h ⊢
    by_cases hov : heapADD_WILL_OVERFLOW n (8 + 8 - n % 8) = true
    · rw [if_pos hov] at h
      omega
    · rw [if_neg hov] at h ⊢
      unfold heapADD_WILL_OVERFLOW at hov
      rw [hM] at hov
      simp only [decide_eq_true_eq, not_lt] at hov
      rw [hM]
      omega
  · exfalso
    unfold xAdjustedSize at h
    simp [hn] at h

/-! ### Characterization of the insert-loop walk -/

theorem insertLoop_nilA (it c : BlockLink_t) (B : List BlockLink_t)
    (ins : BlockLink_t) (e : Nat) (hc : ¬ c.addr < ins.addr) :
    insertLoop it (c :: B) ins e = mergeStep it c B ins e := by
  simp [insertLoop, hc]

theorem insertLoop_split (it : BlockLink_t) (A : List BlockLink_t)
    (c : BlockLink_t) (B : List BlockLink_t) (ins : BlockLink_t) (e : Nat)
    (hA : ∀ a ∈ A, a.addr < ins.addr) (hc : ¬ c.addr < ins.addr) :
    insertLoop it (A ++ c :: B) ins e =
      (it :: A).dropLast ++ mergeStep (A.getLastD it) c B ins e := by
  induction A generalizing it with
  | nil => simp [insertLoop, hc]
  | cons a A ih =>
      have ha : a.addr < ins.addr := hA a (by simp)
      simp only [List.cons_append, insertLoop, List.append_eq, ha, if_true]
      rw [ih a (fun x hx => hA x (by simp [hx]))]
      rw [List.dropLast_cons₂, List.cons_append, List.getLastD_cons]

theorem mergeStep_nn {it c : BlockLink_t} (B : List BlockLink_t)
    {ins : BlockLink_t} (e : Nat)
    (h1 : it.addr + it.size ≠ ins.addr) (h2 : ins.addr + ins.size ≠ c.addr) :
    mergeStep it c B ins e = it :: ins :: c :: B := by
  simp [mergeStep, h1, h2]

theorem mergeStep_nr {it c : BlockLink_t} (B : List BlockLink_t)
    {ins : BlockLink_t} {e : Nat}
    (h1 : it.addr + it.size ≠ ins.addr) (h2 : ins.addr + ins.size = c.addr)
    (h3 : c.addr ≠ e) :
    mergeStep it c B ins e = it :: ⟨ins.addr, add32 ins.size c.size⟩ :: B := by
  simp [mergeStep, h1, h2, h3]

theorem mergeStep_ne {it c : BlockLink_t} (B : List BlockLink_t)
    {ins : BlockLink_t} {e : Nat}
    (h1 : it.addr + it.size ≠ ins.addr) (h2 : ins.addr + ins.size = c.addr)
    (h3 : c.addr = e) :
    mergeStep it c B ins e = it :: ins :: c :: B := by
  simp [mergeStep, h1, h2, h3]

theorem mergeStep_ln {it c : BlockLink_t} (B : List BlockLink_t)
    {ins : BlockLink_t} (e : Nat)
    (h1 : it.addr + it.size = ins.addr) (hw : it.size + ins.size < size_t_card)
    (h2 : ins.addr + ins.size ≠ c.addr) :
    mergeStep it c B ins e = ⟨it.addr, add32 it.size ins.size⟩ :: c :: B := by
  have hb : it.addr + add32 it.size ins.size = ins.addr + ins.size := by
    rw [add32_eq hw]; omega
  simp only [mergeStep, h1, if_true]
  rw [if_neg (by simpa [hb] using h2)]

theorem mergeStep_lr {it c : BlockLink_t} (B : List BlockLink_t)
    {ins : BlockLink_t} {e : Nat}
    (h1 : it.addr + it.size = ins.addr) (hw : it.size + ins.size < size_t_card)
    (h2 : ins.addr + ins.size = c.addr) (h3 : c.addr ≠ e) :
    mergeStep it c B ins e =
      ⟨it.addr, add32 (add32 it.size ins.size) c.size⟩ :: B := by
  have hb : it.addr + add32 it.size ins.size = ins.addr + ins.size := by
    rw [add32_eq hw]; omega
  simp only [mergeStep, h1, if_true]
  rw [if_pos (by simpa [hb] using h2), if_pos h3]

theorem mergeStep_le {it c : BlockLink_t} (B : List BlockLink_t)
    {ins : BlockLink_t} {e : Nat}
    (h1 : it.addr + it.size = ins.addr) (hw : it.size + ins.size < size_t_card)
    (h2 : ins.addr + ins.size = c.addr) (h3 : c.addr = e) :
    mergeStep it c B ins e = ⟨it.addr, add32 it.size ins.size⟩ :: c :: B := by
  have hb : it.addr + add32 it.size ins.size = ins.addr + ins.size := by
    rw [add32_eq hw]; omega
  simp only [mergeStep, h1, if_true]
  rw [if_pos (by simpa [hb] using h2), if_neg (by simpa using h3)]

/-! ### Characterization of the first-fit walk -/

theorem mallocFind_all_small {w : Nat} (bs : List BlockLink_t) (z : BlockLink_t)
    (hsmall : ∀ b ∈ bs, b.size < w) :
    mallocFind (bs ++ [z]) w = (bs, some (z, [])) := by
  induction bs with
  | nil => simp [mallocFind]
  | cons b bs ih =>
      have hb : b.size < w := hsmall b (by simp)
      have hcond : b.size < w ∧ bs ++ [z] ≠ [] := ⟨hb, by simp⟩
      simp only [List.cons_append, mallocFind, List.append_eq]
      rw [if_pos hcond, ih (fun x hx => hsmall x (by simp [hx]))]

theorem mallocFind_found {w : Nat} (pre : List BlockLink_t) (c : BlockLink_t)
    (post : List BlockLink_t)
    (hpre : ∀ b ∈ pre, b.size < w) (hc : ¬ c.size < w) :
    mallocFind (pre ++ c :: post) w = (pre, some (c, post)) := by
  induction pre with
  | nil => simp [mallocFind, hc]
  | cons b pre ih =>
      have hb : b.size < w := hpre b (by simp)
      have hcond : b.size < w ∧ pre ++ c :: post ≠ [] := ⟨hb, by simp⟩
      simp only [List.cons_append, mallocFind, List.append_eq]
      rw [if_pos hcond, ih (fun x hx => hpre x (by simp [hx]))]

/-! ### Block-level predicates and the heap well-formedness invariant -/

/-- Strict address gap between two blocks: the first ends strictly below the
second's start.  This is the no-adjacent-free relation between consecutive
real free blocks. -/
def gapR (x y : BlockLink_t) : Prop := x.addr + x.size < y.addr

instance : DecidablePred fun p : BlockLink_t × BlockLink_t => gapR p.1 p.2 :=
  fun p => inferInstanceAs (Decidable (p.1.addr + p.1.size < p.2.addr))

instance (x y : BlockLink_t) : Decidable (gapR x y) :=
  inferInstanceAs (Decidable (x.addr + x.size < y.addr))

instance : IsTrans BlockLink_t gapR :=
  ⟨fun x y z h1 h2 => by unfold gapR at *; omega⟩

/-- Well-formedness of a single real free block of a heap whose managed
region starts at `lo` and whose `pxEnd` sentinel sits at `e`. -/
def blockOK (lo e : Nat) (b : BlockLink_t) : Prop :=
  lo ≤ b.addr ∧ b.addr + b.size ≤ e ∧ b.addr % 8 = 0 ∧ b.size % 8 = 0 ∧
    heap_minimum_block_size ≤ b.size

instance (lo e : Nat) (b : BlockLink_t) : Decidable (blockOK lo e b) :=
  inferInstanceAs (Decidable (_ ∧ _ ∧ _ ∧ _ ∧ _))

/-- Membership of a byte address in the span of a block. -/
def inB (x : Nat) (b : BlockLink_t) : Prop := b.addr ≤ x ∧ x < b.addr + b.size

instance (x : Nat) (b : BlockLink_t) : Decidable (inB x b) :=
  inferInstanceAs (Decidable (_ ∧ _))

/-- A byte address lies in the span of some block of the list. -/
def covered (bs : List BlockLink_t) (x : Nat) : Prop := ∃ b ∈ bs, inB x b

/-- The masked `_size` of a header, with the allocation bit cleared. -/
def maskedSize (b : BlockLink_t) : Nat :=
  b.size &&& (heapBLOCK_ALLOCATED_BITMASK - 1)

/-- Pointwise disjointness of two allocated-header spans. -/
def allocDisj (p q : BlockLink_t) : Prop :=
  ∀ x, inB x ⟨p.addr, maskedSize p⟩ → ¬ inB x ⟨q.addr, maskedSize q⟩

/-- Well-formedness invariant of a `Heap4` state whose managed buffer starts
at the aligned address `lo`.  It packages the free-list shape (real free
blocks followed by the `pxEnd` sentinel), the strict-gap chain, per-block
well-formedness, the byte-count agreement, and the corresponding facts for
the allocated headers. -/
structure Inv (lo : Nat) (h : Heap4) : Prop where
  lo_pos : 0 < lo
  lo_align : lo % 8 = 0
  end_align : h.pxEndAddr % 8 = 0
  end_lo : lo + heap_minimum_block_size ≤ h.pxEndAddr
  end_span : h.pxEndAddr ≤ lo + configTOTAL_HEAP_SIZE
  shape : ∃ bs, h.freeList = bs ++ [⟨h.pxEndAddr, 0⟩]
      ∧ (∀ b ∈ bs, blockOK lo h.pxEndAddr b)
      ∧ List.Chain' gapR bs
      ∧ h.xFreeBytesRemaining = (bs.map (·.size)).sum
  alloc_ok : ∀ a ∈ h.allocated, ∃ m, a.size = m ||| heapBLOCK_ALLOCATED_BITMASK
      ∧ m < 2 ^ 31 ∧ blockOK lo h.pxEndAddr ⟨a.addr, m⟩
  alloc_disj_free : ∀ a ∈ h.allocated, ∀ f ∈ h.freeList,
      ∀ x, inB x ⟨a.addr, maskedSize a⟩ → ¬ inB x f
  alloc_pair : h.allocated.Pairwise allocDisj
  min_le : h.xMinimumEverFreeBytesRemaining ≤ h.xFreeBytesRemaining

/-! ### Small facts about the predicates -/

theorem heap_minimum_block_size_eq : heap_minimum_block_size = 16 := by decide

theorem blockOK_size_le {lo e : Nat} {b : BlockLink_t} (h : blockOK lo e b)
    (hspan : e ≤ lo + configTOTAL_HEAP_SIZE) : b.size ≤ configTOTAL_HEAP_SIZE := by
  obtain ⟨h1, h2, _⟩ := h
  omega

theorem blockOK_maskedSize {b : BlockLink_t} {lo e m : Nat}
    (hm : b.size = m ||| heapBLOCK_ALLOCATED_BITMASK) (hmlt : m < 2 ^ 31)
    (hok : blockOK lo e ⟨b.addr, m⟩) : maskedSize b = m := by
  unfold maskedSize
  rw [hm]
  exact or_bitmask_and_low hmlt

theorem disj_intervals {ins b : BlockLink_t}
    (h : ∀ x, inB x ins → ¬ inB x b) (hins : 0 < ins.size) (hb : 0 < b.size) :
    ins.addr + ins.size ≤ b.addr ∨ b.addr + b.size ≤ ins.addr := by
  by_contra hcon
  push_neg at hcon
  obtain ⟨h1, h2⟩ := hcon
  rcases le_total ins.addr b.addr with hle | hle
  · exact h b.addr ⟨hle, h1⟩ ⟨le_refl _, by omega⟩
  · exact h ins.addr ⟨le_refl _, by omega⟩ ⟨hle, h2⟩

theorem sum_le_span {e : Nat} (bs : List BlockLink_t) (lo : Nat)
    (hpw : bs.Pairwise gapR)
    (hin : ∀ b ∈ bs, lo ≤ b.addr ∧ b.addr + b.size ≤ e) :
    (bs.map (·.size)).sum ≤ e - lo := by
  induction bs generalizing lo with
  | nil => simp
  | cons b bs ih =>
      have hb := hin b (by simp)
      have hpw' := List.pairwise_cons.mp hpw
      have ih' := ih (b.addr + b.size) hpw'.2
        (fun x hx => ⟨le_of_lt (hpw'.1 x hx), (hin x (by simp [hx])).2⟩)
      simp only [List.map_cons, List.sum_cons]
      omega

theorem inv_free_lt {lo : Nat} {h : Heap4} (hInv : Inv lo h) :
    h.xFreeBytesRemaining ≤ configTOTAL_HEAP_SIZE := by
  obtain ⟨bs, _, hok, hch, hsum⟩ := hInv.shape
  have hpw : bs.Pairwise gapR := (List.chain'_iff_pairwise).mp hch
  have hle := sum_le_span bs lo hpw
    (fun b hb => ⟨(hok b hb).1, (hok b hb).2.1⟩)
  have := hInv.end_span
  omega

/-! ### Preservation of the free-list invariants by the insert operation -/

/-- Insertion of a well-formed block into a well-formed free list, given the
position of the walk's stop point: `A` is the prefix of blocks below the
inserted block, `D` the suffix at or above it.  The resulting list is again
an address-sorted strict-gap list of well-formed blocks whose sizes sum to
the old sum plus the inserted size, covering only old bytes plus the
inserted block's bytes, and the end sentinel survives unmerged. -/
theorem insert_ok_at (A D : List BlockLink_t) (ins : BlockLink_t) (lo e : Nat)
    (hlo : 0 < lo) (hspan : e ≤ lo + configTOTAL_HEAP_SIZE)
    (hbs : ∀ b ∈ A ++ D, blockOK lo e b)
    (hpw : (A ++ D).Pairwise gapR)
    (hins : blockOK lo e ins)
    (hA : ∀ a ∈ A, a.addr < ins.addr)
    (hAend : ∀ a ∈ A, a.addr + a.size ≤ ins.addr)
    (hD : ∀ d ∈ D, ins.addr + ins.size ≤ d.addr) :
    ∃ bs',
      insertLoop ⟨0, 0⟩ ((A ++ D) ++ [⟨e, 0⟩]) ins e = ⟨0, 0⟩ :: (bs' ++ [⟨e, 0⟩])
      ∧ (∀ b ∈ bs', blockOK lo e b)
      ∧ bs'.Pairwise gapR
      ∧ ((bs'.map (·.size)).sum = ((A ++ D).map (·.size)).sum + ins.size)
      ∧ (∀ b' ∈ bs', ∀ x, inB x b' → inB x ins ∨ covered (A ++ D) x) := by
  have hTOT : configTOTAL_HEAP_SIZE = 204800 := by decide
  have hCARD : size_t_card = 4294967296 := by decide
  have hMIN : heap_minimum_block_size = 16 := by decide
  have hinssz : ins.size ≤ configTOTAL_HEAP_SIZE := blockOK_size_le hins hspan
  obtain ⟨hins1, hins2, hins3, hins4, hins5⟩ := hins
  rcases D with _ | ⟨c, D'⟩
  · -- no node at or above the inserted block: the walk stops at the sentinel
    have hc : ¬ (⟨e, 0⟩ : BlockLink_t).addr < ins.addr := by
      simp only [not_lt]; omega
    rw [show (A ++ []) ++ [(⟨e, 0⟩ : BlockLink_t)] = A ++ (⟨e, 0⟩ : BlockLink_t) :: [] by simp]
    rw [insertLoop_split _ _ _ _ _ _ hA hc]
    rcases List.eq_nil_or_concat A with hAe | ⟨A₀, a, hAc⟩
    · subst hAe
      have hnl : (⟨0, 0⟩ : BlockLink_t).addr + (⟨0, 0⟩ : BlockLink_t).size ≠ ins.addr := by
        simp only; omega
      refine ⟨[ins], ?_, ?_, ?_, ?_, ?_⟩
      · simp only [List.getLastD_nil, List.dropLast_single, List.nil_append]
        by_cases hre : ins.addr + ins.size = e
        · rw [@mergeStep_ne ⟨0, 0⟩ ⟨e, 0⟩ [] ins e hnl hre rfl]; simp
        · rw [@mergeStep_nn ⟨0, 0⟩ ⟨e, 0⟩ [] ins e hnl hre]; simp
      · intro b hb; simp at hb; subst hb; exact ⟨hins1, hins2, hins3, hins4, hins5⟩
      · simp
      · simp
      · intro b' hb' x hx; simp at hb'; subst hb'; exact Or.inl hx
    · subst hAc
      simp only [List.concat_eq_append] at *
      have hamem : a ∈ A₀ ++ [a] := by simp
      obtain ⟨ha1, ha2, ha3, ha4, ha5⟩ := hbs a (by simp)
      have haend : a.addr + a.size ≤ ins.addr := hAend a hamem
      have hasz : a.size ≤ configTOTAL_HEAP_SIZE := by omega
      have hgl : (A₀ ++ [a]).getLastD ⟨0, 0⟩ = a := List.getLastD_concat _ _ _
      have hdl : ((⟨0, 0⟩ : BlockLink_t) :: (A₀ ++ [a])).dropLast = ⟨0, 0⟩ :: A₀ := by
        rw [show (⟨0, 0⟩ : BlockLink_t) :: (A₀ ++ [a]) = ((⟨0, 0⟩ : BlockLink_t) :: A₀) ++ [a] by simp]
        rw [List.dropLast_concat]
      rw [hgl, hdl]
      have hpwA : (A₀ ++ [a]).Pairwise gapR := by simpa using hpw
      have hpw0 : A₀.Pairwise gapR := (List.pairwise_append.mp hpwA).1
      have hgapA₀a : ∀ x ∈ A₀, gapR x a := fun x hx =>
        (List.pairwise_append.mp hpwA).2.2 x hx a (by simp)
      by_cases hlm : a.addr + a.size = ins.addr
      · have hw : a.size + ins.size < size_t_card := by omega
        refine ⟨A₀ ++ [⟨a.addr, add32 a.size ins.size⟩], ?_, ?_, ?_, ?_, ?_⟩
        · by_cases hre : ins.addr + ins.size = e
          · rw [@mergeStep_le a ⟨e, 0⟩ [] ins e hlm hw hre rfl]; simp
          · rw [@mergeStep_ln a ⟨e, 0⟩ [] ins e hlm hw hre]; simp
        · intro b hb
          rcases List.mem_append.mp hb with hb0 | hb1
          · exact hbs b (by simp [hb0])
          · simp at hb1; subst hb1
            rw [add32_eq hw]
            refine ⟨ha1, by simp only; omega, ha3, by simp only; omega, by simp only; omega⟩
        · rw [List.pairwise_append]
          refine ⟨hpw0, by simp, ?_⟩
          intro x hx y hy
          simp at hy; subst hy
          exact hgapA₀a x hx
        · rw [add32_eq hw]
          simp [List.map_append]
          omega
        · intro b' hb' x hx
          rcases List.mem_append.mp hb' with hb0 | hb1
          · exact Or.inr ⟨b', by simp [hb0], hx⟩
          · simp at hb1; subst hb1
            rw [add32_eq hw] at hx
            obtain ⟨hx1, hx2⟩ := hx
            simp only at hx1 hx2
            by_cases hxa : x < a.addr + a.size
            · exact Or.inr ⟨a, by simp, ⟨hx1, hxa⟩⟩
            · exact Or.inl ⟨by omega, by omega⟩
      · refine ⟨(A₀ ++ [a]) ++ [ins], ?_, ?_, ?_, ?_, ?_⟩
        · by_cases hre : ins.addr + ins.size = e
          · rw [@mergeStep_ne a ⟨e, 0⟩ [] ins e hlm hre rfl]; simp
          · rw [@mergeStep_nn a ⟨e, 0⟩ [] ins e hlm hre]; simp
        · intro b hb
          rcases List.mem_append.mp hb with hb0 | hb1
          · exact hbs b (by simp [hb0])
          · simp at hb1; subst hb1
            exact ⟨hins1, hins2, hins3, hins4, hins5⟩
        · rw [List.pairwise_append]
          refine ⟨hpwA, by simp, ?_⟩
          intro x hx y hy
          simp at hy; subst hy
          rcases List.mem_append.mp hx with hx0 | hx1
          · have := hgapA₀a x hx0
            unfold gapR at *
            omega
          · simp at hx1; subst hx1
            unfold gapR
            omega
        · simp [List.map_append]
          omega
        · intro b' hb' x hx
          rcases List.mem_append.mp hb' with hb0 | hb1
          · exact Or.inr ⟨b', by simp [hb0], hx⟩
          · simp at hb1; subst hb1
            exact Or.inl hx
  · -- the walk stops at the real block c
    obtain ⟨hc1, hc2, hc3, hc4, hc5⟩ := hbs c (by simp)
    have hcsz : c.size ≤ configTOTAL_HEAP_SIZE := by omega
    have hcne : c.addr ≠ e := by omega
    have hcD : ins.addr + ins.size ≤ c.addr := hD c (by simp)
    have hcge : ¬ c.addr < ins.addr := by omega
    rw [show (A ++ c :: D') ++ [(⟨e, 0⟩ : BlockLink_t)] =
          A ++ c :: (D' ++ [(⟨e, 0⟩ : BlockLink_t)]) by simp]
    rw [insertLoop_split _ _ _ _ _ _ hA hcge]
    have hpwD : (c :: D').Pairwise gapR := (List.pairwise_append.mp hpw).2.1
    have hgapcD' : ∀ d ∈ D', gapR c d := fun d hd => (List.pairwise_cons.mp hpwD).1 d hd
    have hpwD' : D'.Pairwise gapR := (List.pairwise_cons.mp hpwD).2
    have hcross : ∀ x ∈ A, ∀ y ∈ c :: D', gapR x y :=
      (List.pairwise_append.mp hpw).2.2
    have hDok : ∀ d ∈ D', blockOK lo e d := fun d hd => hbs d (by simp [hd])
    rcases List.eq_nil_or_concat A with hAe | ⟨A₀, a, hAc⟩
    · subst hAe
      have hnl : (⟨0, 0⟩ : BlockLink_t).addr + (⟨0, 0⟩ : BlockLink_t).size ≠ ins.addr := by
        simp only; omega
      simp only [List.getLastD_nil, List.dropLast_single, List.nil_append]
      by_cases hrm : ins.addr + ins.size = c.addr
      · have hw2 : ins.size + c.size < size_t_card := by omega
        refine ⟨⟨ins.addr, add32 ins.size c.size⟩ :: D', ?_, ?_, ?_, ?_, ?_⟩
        · rw [@mergeStep_nr ⟨0, 0⟩ c (D' ++ [(⟨e, 0⟩ : BlockLink_t)]) ins e hnl hrm hcne]; simp
        · intro b hb
          rcases List.mem_cons.mp hb with hb1 | hb1
          · subst hb1
            rw [add32_eq hw2]
            refine ⟨hins1, by simp only; omega, hins3, by simp only; omega, by simp only; omega⟩
          · exact hDok b hb1
        · rw [List.pairwise_cons]
          refine ⟨?_, hpwD'⟩
          intro d hd
          have := hgapcD' d hd
          unfold gapR at *
          rw [add32_eq hw2]
          simp only
          omega
        · rw [add32_eq hw2]
          simp
          omega
        · intro b' hb' x hx
          rcases List.mem_cons.mp hb' with hb1 | hb1
          · subst hb1
            rw [add32_eq hw2] at hx
            obtain ⟨hx1, hx2⟩ := hx
            simp only at hx1 hx2
            by_cases hxc : x < ins.addr + ins.size
            · exact Or.inl ⟨hx1, hxc⟩
            · exact Or.inr ⟨c, by simp, ⟨by omega, by omega⟩⟩
          · exact Or.inr ⟨b', by simp [hb1], hx⟩
      · refine ⟨ins :: c :: D', ?_, ?_, ?_, ?_, ?_⟩
        · rw [@mergeStep_nn ⟨0, 0⟩ c (D' ++ [(⟨e, 0⟩ : BlockLink_t)]) ins e hnl hrm]; simp
        · intro b hb
          rcases List.mem_cons.mp hb with hb1 | hb1
          · subst hb1; exact ⟨hins1, hins2, hins3, hins4, hins5⟩
          · exact hbs b (by simp [hb1])
        · rw [List.pairwise_cons]
          refine ⟨?_, hpwD⟩
          intro d hd
          rcases List.mem_cons.mp hd with hd1 | hd1
          · subst hd1; unfold gapR; omega
          · have := hgapcD' d hd1
            unfold gapR at *
            omega
        · simp
          omega
        · intro b' hb' x hx
          rcases List.mem_cons.mp hb' with hb1 | hb1
          · subst hb1; exact Or.inl hx
          · exact Or.inr ⟨b', by simp [hb1], hx⟩
    · subst hAc
      simp only [List.concat_eq_append] at *
      have hamem : a ∈ A₀ ++ [a] := by simp
      obtain ⟨ha1, ha2, ha3, ha4, ha5⟩ := hbs a (by simp)
      have haend : a.addr + a.size ≤ ins.addr := hAend a hamem
      have hasz : a.size ≤ configTOTAL_HEAP_SIZE := by omega
      have hgl : (A₀ ++ [a]).getLastD ⟨0, 0⟩ = a := List.getLastD_concat _ _ _
      have hdl : ((⟨0, 0⟩ : BlockLink_t) :: (A₀ ++ [a])).dropLast = ⟨0, 0⟩ :: A₀ := by
        rw [show (⟨0, 0⟩ : BlockLink_t) :: (A₀ ++ [a]) = ((⟨0, 0⟩ : BlockLink_t) :: A₀) ++ [a] by simp]
        rw [List.dropLast_concat]
      rw [hgl, hdl]
      have hpwA : (A₀ ++ [a]).Pairwise gapR := (List.pairwise_append.mp hpw).1
      have hpw0 : A₀.Pairwise gapR := (List.pairwise_append.mp hpwA).1
      have hgapA₀a : ∀ x ∈ A₀, gapR x a := fun x hx =>
        (List.pairwise_append.mp hpwA).2.2 x hx a (by simp)
      have hcross0 : ∀ x ∈ A₀, ∀ y ∈ c :: D', gapR x y := fun x hx =>
        hcross x (by simp [hx])
      have hcrossa : ∀ y ∈ c :: D', gapR a y := hcross a (by simp)
      by_cases hlm : a.addr + a.size = ins.addr
      · have hw : a.size + ins.size < size_t_card := by omega
        by_cases hrm : ins.addr + ins.size = c.addr
        · -- merge on both sides
          have hw2 : add32 a.size ins.size + c.size < size_t_card := by
            rw [add32_eq hw]; omega
          refine ⟨A₀ ++ ⟨a.addr, add32 (add32 a.size ins.size) c.size⟩ :: D', ?_, ?_, ?_, ?_, ?_⟩
          · rw [@mergeStep_lr a c (D' ++ [(⟨e, 0⟩ : BlockLink_t)]) ins e hlm hw hrm hcne]; simp
          · intro b hb
            rcases List.mem_append.mp hb with hb0 | hb1
            · exact hbs b (by simp [hb0])
            · rcases List.mem_cons.mp hb1 with hb2 | hb2
              · subst hb2
                rw [add32_eq hw2, add32_eq hw]
                refine ⟨ha1, by simp only; omega, ha3, by simp only; omega, by simp only; omega⟩
              · exact hDok b hb2
          · rw [List.pairwise_append]
            refine ⟨hpw0, ?_, ?_⟩
            · rw [List.pairwise_cons]
              refine ⟨?_, hpwD'⟩
              intro d hd
              have := hgapcD' d hd
              unfold gapR at *
              rw [add32_eq hw2, add32_eq hw]
              simp only
              omega
            · intro x hx y hy
              rcases List.mem_cons.mp hy with hy1 | hy1
              · subst hy1
                have := hgapA₀a x hx
                unfold gapR at *
                simp only
                omega
              · have h1 := hgapA₀a x hx
                have h2 := hgapcD' y hy1
                unfold gapR at *
                omega
          · rw [add32_eq hw2, add32_eq hw]
            simp [List.map_append]
            omega
          · intro b' hb' x hx
            rcases List.mem_append.mp hb' with hb0 | hb1
            · exact Or.inr ⟨b', by simp [hb0], hx⟩
            · rcases List.mem_cons.mp hb1 with hb2 | hb2
              · subst hb2
                rw [add32_eq hw2, add32_eq hw] at hx
                obtain ⟨hx1, hx2⟩ := hx
                simp only at hx1 hx2
                by_cases hxa : x < a.addr + a.size
                · exact Or.inr ⟨a, by simp, ⟨hx1, hxa⟩⟩
                · by_cases hxi : x < ins.addr + ins.size
                  · exact Or.inl ⟨by omega, hxi⟩
                  · exact Or.inr ⟨c, by simp, ⟨by omega, by omega⟩⟩
              · exact Or.inr ⟨b', by simp [hb2], hx⟩
        · -- merge with the predecessor only
          refine ⟨A₀ ++ ⟨a.addr, add32 a.size ins.size⟩ :: c :: D', ?_, ?_, ?_, ?_, ?_⟩
          · rw [@mergeStep_ln a c (D' ++ [(⟨e, 0⟩ : BlockLink_t)]) ins e hlm hw hrm]; simp
          · intro b hb
            rcases List.mem_append.mp hb with hb0 | hb1
            · exact hbs b (by simp [hb0])
            · rcases List.mem_cons.mp hb1 with hb2 | hb2
              · subst hb2
                rw [add32_eq hw]
                refine ⟨ha1, by simp only; omega, ha3, by simp only; omega, by simp only; omega⟩
              · exact hbs b (by simp [hb2])
          · rw [List.pairwise_append]
            refine ⟨hpw0, ?_, ?_⟩
            · rw [List.pairwise_cons]
              refine ⟨?_, hpwD⟩
              intro d hd
              rcases List.mem_cons.mp hd with hd1 | hd1
              · subst hd1
                unfold gapR
                rw [add32_eq hw]
                simp only
                omega
              · have := hgapcD' d hd1
                unfold gapR at *
                rw [add32_eq hw]
                simp only
                omega
            · intro x hx y hy
              rcases List.mem_cons.mp hy with hy1 | hy1
              · subst hy1
                have := hgapA₀a x hx
                unfold gapR at *
                simp only
                omega
              · exact hcross0 x hx y hy1
          · rw [add32_eq hw]
            simp [List.map_append]
            omega
          · intro b' hb' x hx
            rcases List.mem_append.mp hb' with hb0 | hb1
            · exact Or.inr ⟨b', by simp [hb0], hx⟩
            · rcases List.mem_cons.mp hb1 with hb2 | hb2
              · subst hb2
                rw [add32_eq hw] at hx
                obtain ⟨hx1, hx2⟩ := hx
                simp only at hx1 hx2
                by_cases hxa : x < a.addr + a.size
                · exact Or.inr ⟨a, by simp, ⟨hx1, hxa⟩⟩
                · exact Or.inl ⟨by omega, by omega⟩
              · exact Or.inr ⟨b', by simp [hb2], hx⟩
      · by_cases hrm : ins.addr + ins.size = c.addr
        · -- merge with the successor only
          have hw2 : ins.size + c.size < size_t_card := by omega
          refine ⟨(A₀ ++ [a]) ++ ⟨ins.addr, add32 ins.size c.size⟩ :: D', ?_, ?_, ?_, ?_, ?_⟩
          · rw [@mergeStep_nr a c (D' ++ [(⟨e, 0⟩ : BlockLink_t)]) ins e hlm hrm hcne]; simp
          · intro b hb
            rcases List.mem_append.mp hb with hb0 | hb1
            · exact hbs b (by simp at hb0 ⊢; tauto)
            · rcases List.mem_cons.mp hb1 with hb2 | hb2
              · subst hb2
                rw [add32_eq hw2]
                refine ⟨hins1, by simp only; omega, hins3, by simp only; omega, by simp only; omega⟩
              · exact hDok b hb2
          · rw [List.pairwise_append]
            refine ⟨hpwA, ?_, ?_⟩
            · rw [List.pairwise_cons]
              refine ⟨?_, hpwD'⟩
              intro d hd
              have := hgapcD' d hd
              unfold gapR at *
              rw [add32_eq hw2]
              simp only
              omega
            · intro x hx y hy
              have hxstrict : x.addr + x.size < ins.addr ∨ x.addr + x.size ≤ ins.addr := by
                rcases List.mem_append.mp hx with hx0 | hx1
                · have := hgapA₀a x hx0
                  unfold gapR at this
                  exact Or.inl (by omega)
                · simp at hx1; subst hx1
                  exact Or.inr (by omega)
              rcases List.mem_cons.mp hy with hy1 | hy1
              · subst hy1
                unfold gapR
                simp only
                rcases List.mem_append.mp hx with hx0 | hx1
                · have := hgapA₀a x hx0
                  unfold gapR at this
                  omega
                · simp at hx1; subst hx1
                  omega
              · have h2 := hgapcD' y hy1
                have hxe : x.addr + x.size ≤ ins.addr := by
                  rcases List.mem_append.mp hx with hx0 | hx1
                  · have := hgapA₀a x hx0
                    unfold gapR at this
                    omega
                  · simp at hx1; subst hx1; omega
                unfold gapR at *
                omega
          · rw [add32_eq hw2]
            simp [List.map_append]
            omega
          · intro b' hb' x hx
            rcases List.mem_append.mp hb' with hb0 | hb1
            · exact Or.inr ⟨b', by simp at hb0 ⊢; tauto, hx⟩
            · rcases List.mem_cons.mp hb1 with hb2 | hb2
              · subst hb2
                rw [add32_eq hw2] at hx
                obtain ⟨hx1, hx2⟩ := hx
                simp only at hx1 hx2
                by_cases hxi : x < ins.addr + ins.size
                · exact Or.inl ⟨hx1, hxi⟩
                · exact Or.inr ⟨c, by simp, ⟨by omega, by omega⟩⟩
              · exact Or.inr ⟨b', by simp [hb2], hx⟩
        · -- no merge
          refine ⟨(A₀ ++ [a]) ++ ins :: c :: D', ?_, ?_, ?_, ?_, ?_⟩
          · rw [@mergeStep_nn a c (D' ++ [(⟨e, 0⟩ : BlockLink_t)]) ins e hlm hrm]; simp
          · intro b hb
            rcases List.mem_append.mp hb with hb0 | hb1
            · exact hbs b (by simp at hb0 ⊢; tauto)
            · rcases List.mem_cons.mp hb1 with hb2 | hb2
              · subst hb2; exact ⟨hins1, hins2, hins3, hins4, hins5⟩
              · exact hbs b (by simp [hb2])
          · rw [List.pairwise_append]
            refine ⟨hpwA, ?_, ?_⟩
            · rw [List.pairwise_cons]
              refine ⟨?_, hpwD⟩
              intro d hd
              rcases List.mem_cons.mp hd with hd1 | hd1
              · subst hd1; unfold gapR; omega
              · have := hgapcD' d hd1
                unfold gapR at *
                omega
            · intro x hx y hy
              have hxstrict : x.addr + x.size < ins.addr := by
                rcases List.mem_append.mp hx with hx0 | hx1
                · have := hgapA₀a x hx0
                  unfold gapR at this
                  omega
                · simp at hx1; subst hx1; omega
              rcases List.mem_cons.mp hy with hy1 | hy1
              · subst hy1; unfold gapR; omega
              · rcases List.mem_cons.mp hy1 with hy2 | hy2
                · subst hy2; unfold gapR; omega
                · have := hgapcD' y hy2
                  unfold gapR at *
                  omega
          · simp [List.map_append]
            omega
          · intro b' hb' x hx
            rcases List.mem_append.mp hb' with hb0 | hb1
            · exact Or.inr ⟨b', by simp at hb0 ⊢; tauto, hx⟩
            · rcases List.mem_cons.mp hb1 with hb2 | hb2
              · subst hb2; exact Or.inl hx
              · exact Or.inr ⟨b', by simp [hb2], hx⟩

/-- Insertion of a well-formed block disjoint from a well-formed free list
preserves the free-list invariants (shape with intact end sentinel, strict
gaps, per-block well-formedness, size sum, coverage). -/
theorem insert_ok (bs : List BlockLink_t) (ins : BlockLink_t) (lo e : Nat)
    (hlo : 0 < lo) (hspan : e ≤ lo + configTOTAL_HEAP_SIZE)
    (hbs : ∀ b ∈ bs, blockOK lo e b)
    (hch : List.Chain' gapR bs)
    (hins : blockOK lo e ins)
    (hdisj : ∀ b ∈ bs, ∀ x, inB x ins → ¬ inB x b) :
    ∃ bs',
      insertLoop ⟨0, 0⟩ (bs ++ [⟨e, 0⟩]) ins e = ⟨0, 0⟩ :: (bs' ++ [⟨e, 0⟩])
      ∧ (∀ b ∈ bs', blockOK lo e b)
      ∧ List.Chain' gapR bs'
      ∧ ((bs'.map (·.size)).sum = (bs.map (·.size)).sum + ins.size)
      ∧ (∀ b' ∈ bs', ∀ x, inB x b' → inB x ins ∨ covered bs x) := by
  have hMIN : heap_minimum_block_size = 16 := by decide
  have hpw := List.chain'_iff_pairwise.mp hch
  have hinspos : 0 < ins.size := by
    have := hins.2.2.2.2; omega
  set p : BlockLink_t → Bool := fun b => decide (b.addr < ins.addr) with hp
  have hsplit : bs.takeWhile p ++ bs.dropWhile p = bs :=
    List.takeWhile_append_dropWhile p bs
  have htksub : ∀ a ∈ bs.takeWhile p, a ∈ bs :=
    fun a ha => (List.takeWhile_sublist p).subset ha
  have hdrsub : ∀ d ∈ bs.dropWhile p, d ∈ bs :=
    fun d hd => (List.dropWhile_sublist p).subset hd
  have hAmem : ∀ a ∈ bs.takeWhile p, a.addr < ins.addr := by
    intro a ha
    have := List.mem_takeWhile_imp ha
    simpa [hp] using this
  have hAend : ∀ a ∈ bs.takeWhile p, a.addr + a.size ≤ ins.addr := by
    intro a ha
    have h1 := hAmem a ha
    have haOK := hbs a (htksub a ha)
    have hapos : 0 < a.size := by have := haOK.2.2.2.2; omega
    rcases disj_intervals (hdisj a (htksub a ha)) hinspos hapos with h | h
    · omega
    · exact h
  have hDend : ∀ d ∈ bs.dropWhile p, ins.addr + ins.size ≤ d.addr := by
    have hDge : ∀ d ∈ bs.dropWhile p, ins.addr ≤ d.addr := by
      cases hDq : bs.dropWhile p with
      | nil => simp
      | cons c D' =>
        intro d hd
        have hc : ¬ (c.addr < ins.addr) := by
          have hh := List.head?_dropWhile_not p bs
          rw [hDq] at hh
          simpa [hp] using hh
        rcases List.mem_cons.mp hd with h1 | h1
        · subst h1; omega
        · have hpwd : (c :: D').Pairwise gapR := by
            have hsw : (bs.dropWhile p).Pairwise gapR :=
              List.Pairwise.sublist (List.dropWhile_sublist p) hpw
            rw [hDq] at hsw
            exact hsw
          have := (List.pairwise_cons.mp hpwd).1 d h1
          unfold gapR at this
          omega
    intro d hd
    have h1 := hDge d hd
    have hdOK := hbs d (hdrsub d hd)
    have hdpos : 0 < d.size := by have := hdOK.2.2.2.2; omega
    rcases disj_intervals (hdisj d (hdrsub d hd)) hinspos hdpos with h | h
    · exact h
    · exfalso
      have := hdOK.2.2.2.2
      omega
  obtain ⟨bs', h1, h2, h3, h4, h5⟩ :=
    insert_ok_at (bs.takeWhile p) (bs.dropWhile p) ins lo e hlo hspan
      (by rw [hsplit]; exact hbs) (by rw [hsplit]; exact hpw) hins
      hAmem hAend hDend
  rw [hsplit] at h1 h4 h5
  exact ⟨bs', h1, h2, List.chain'_iff_pairwise.mpr h3, h4, h5⟩

/-! ### Exact insert evaluations and the malloc characterization -/

theorem insertLoop_nomerge (P Q : List BlockLink_t) (r : BlockLink_t) (e : Nat)
    (hP : ∀ a ∈ P, a.addr < r.addr)
    (hPend : ∀ a ∈ P, a.addr + a.size ≠ r.addr)
    (hr0 : 0 < r.addr)
    (hQhead : ∀ q ∈ Q.head?, ¬ q.addr < r.addr ∧ (r.addr + r.size ≠ q.addr ∨ q.addr = e))
    (hQne : Q ≠ []) :
    insertLoop ⟨0, 0⟩ (P ++ Q) r e = ⟨0, 0⟩ :: (P ++ r :: Q) := by
  rcases Q with _ | ⟨c, Q'⟩
  · exact absurd rfl hQne
  · obtain ⟨hc1, hc2⟩ := hQhead c (by simp)
    rw [insertLoop_split _ _ _ _ _ _ hP hc1]
    rcases List.eq_nil_or_concat P with hPe | ⟨P₀, a, hPc⟩
    · subst hPe
      simp only [List.getLastD_nil, List.dropLast_single, List.nil_append]
      have hnl : (⟨0, 0⟩ : BlockLink_t).addr + (⟨0, 0⟩ : BlockLink_t).size ≠ r.addr := by
        simp only; omega
      rcases hc2 with hne | heq
      · rw [@mergeStep_nn ⟨0, 0⟩ c Q' r e hnl hne]
      · by_cases hne : r.addr + r.size = c.addr
        · rw [@mergeStep_ne ⟨0, 0⟩ c Q' r e hnl hne heq]
        · rw [@mergeStep_nn ⟨0, 0⟩ c Q' r e hnl hne]
    · subst hPc
      simp only [List.concat_eq_append] at *
      have hgl : (P₀ ++ [a]).getLastD ⟨0, 0⟩ = a := List.getLastD_concat _ _ _
      have hdl : ((⟨0, 0⟩ : BlockLink_t) :: (P₀ ++ [a])).dropLast = ⟨0, 0⟩ :: P₀ := by
        rw [show (⟨0, 0⟩ : BlockLink_t) :: (P₀ ++ [a]) = ((⟨0, 0⟩ : BlockLink_t) :: P₀) ++ [a] by simp]
        rw [List.dropLast_concat]
      rw [hgl, hdl]
      have hnl : a.addr + a.size ≠ r.addr := hPend a (by simp)
      rcases hc2 with hne | heq
      · rw [@mergeStep_nn a c Q' r e hnl hne]; simp
      · by_cases hne : r.addr + r.size = c.addr
        · rw [@mergeStep_ne a c Q' r e hnl hne heq]; simp
        · rw [@mergeStep_nn a c Q' r e hnl hne]; simp

theorem insertLoop_rightmerge (P : List BlockLink_t) (r c : BlockLink_t)
    (Q' : List BlockLink_t) (e : Nat)
    (hP : ∀ a ∈ P, a.addr < r.addr)
    (hPend : ∀ a ∈ P, a.addr + a.size ≠ r.addr)
    (hr0 : 0 < r.addr)
    (hc : ¬ c.addr < r.addr)
    (hrm : r.addr + r.size = c.addr) (hcne : c.addr ≠ e) :
    insertLoop ⟨0, 0⟩ (P ++ c :: Q') r e =
      ⟨0, 0⟩ :: (P ++ ⟨r.addr, add32 r.size c.size⟩ :: Q') := by
  rw [insertLoop_split _ _ _ _ _ _ hP hc]
  rcases List.eq_nil_or_concat P with hPe | ⟨P₀, a, hPc⟩
  · subst hPe
    simp only [List.getLastD_nil, List.dropLast_single, List.nil_append]
    have hnl : (⟨0, 0⟩ : BlockLink_t).addr + (⟨0, 0⟩ : BlockLink_t).size ≠ r.addr := by
      simp only; omega
    rw [@mergeStep_nr ⟨0, 0⟩ c Q' r e hnl hrm hcne]
  · subst hPc
    simp only [List.concat_eq_append] at *
    have hgl : (P₀ ++ [a]).getLastD ⟨0, 0⟩ = a := List.getLastD_concat _ _ _
    have hdl : ((⟨0, 0⟩ : BlockLink_t) :: (P₀ ++ [a])).dropLast = ⟨0, 0⟩ :: P₀ := by
      rw [show (⟨0, 0⟩ : BlockLink_t) :: (P₀ ++ [a]) = ((⟨0, 0⟩ : BlockLink_t) :: P₀) ++ [a] by simp]
      rw [List.dropLast_concat]
    rw [hgl, hdl]
    have hnl : a.addr + a.size ≠ r.addr := hPend a (by simp)
    rw [@mergeStep_nr a c Q' r e hnl hrm hcne]
    simp

theorem mallocInner_invalid (h : Heap4) (w : Nat)
    (hv : ¬ heapBLOCK_SIZE_IS_VALID w = true) :
    mallocInner h w = (h, none) := by
  unfold mallocInner
  rw [if_neg hv]

theorem mallocInner_reject (h : Heap4) (w : Nat)
    (hr : ¬ (0 < w ∧ w ≤ h.xFreeBytesRemaining)) :
    mallocInner h w = (h, none) := by
  unfold mallocInner
  by_cases hv : heapBLOCK_SIZE_IS_VALID w = true
  · rw [if_pos hv, if_neg hr]
  · rw [if_neg hv]

theorem mallocInner_nofit (h : Heap4) (w : Nat) (bs : List BlockLink_t)
    (hshape : h.freeList = bs ++ [⟨h.pxEndAddr, 0⟩])
    (hsmall : ∀ b ∈ bs, b.size < w) :
    mallocInner h w = (h, none) := by
  unfold mallocInner
  by_cases hv : heapBLOCK_SIZE_IS_VALID w = true
  · rw [if_pos hv]
    by_cases hr : 0 < w ∧ w ≤ h.xFreeBytesRemaining
    · rw [if_pos hr, hshape, mallocFind_all_small bs _ hsmall]
      simp
    · rw [if_neg hr]
  · rw [if_neg hv]

theorem mallocInner_eq_nosplit (h : Heap4) (w lo : Nat)
    (bs pre post : List BlockLink_t) (c : BlockLink_t)
    (hshape : h.freeList = bs ++ [⟨h.pxEndAddr, 0⟩])
    (hbs : bs = pre ++ c :: post)
    (hok : ∀ b ∈ bs, blockOK lo h.pxEndAddr b)
    (hlo : 0 < lo) (hspan : h.pxEndAddr ≤ lo + configTOTAL_HEAP_SIZE)
    (hpre : ∀ b ∈ pre, b.size < w)
    (hcfit : w ≤ c.size)
    (hvalid : heapBLOCK_SIZE_IS_VALID w = true)
    (hwpos : 0 < w) (hwle : w ≤ h.xFreeBytesRemaining)
    (hnosplit : c.size - w ≤ heap_minimum_block_size) :
    mallocInner h w =
      ({ h with
          freeList := (pre ++ post) ++ [⟨h.pxEndAddr, 0⟩],
          xFreeBytesRemaining := sub32 h.xFreeBytesRemaining c.size,
          xMinimumEverFreeBytesRemaining :=
            if sub32 h.xFreeBytesRemaining c.size < h.xMinimumEverFreeBytesRemaining
            then sub32 h.xFreeBytesRemaining c.size
            else h.xMinimumEverFreeBytesRemaining,
          allocated := ⟨c.addr, c.size ||| heapBLOCK_ALLOCATED_BITMASK⟩ :: h.allocated,
          xNumberOfSuccessfulAllocations := add32 h.xNumberOfSuccessfulAllocations 1 },
       some (c.addr + size_of_heap_block_linklist_element)) := by
  have hTOT : configTOTAL_HEAP_SIZE = 204800 := by decide
  have hCARD : size_t_card = 4294967296 := by decide
  have hMIN : heap_minimum_block_size = 16 := by decide
  obtain ⟨hc1, hc2, hc3, hc4, hc5⟩ := hok c (by simp [hbs])
  have hcsz : c.size < size_t_card := by omega
  have hcne : c.addr ≠ h.pxEndAddr := by omega
  have hsub : sub32 c.size w = c.size - w := sub32_eq hcfit hcsz
  unfold mallocInner
  rw [if_pos hvalid, if_pos ⟨hwpos, hwle⟩, hshape, hbs]
  rw [show (pre ++ c :: post) ++ [(⟨h.pxEndAddr, 0⟩ : BlockLink_t)] =
        pre ++ c :: (post ++ [(⟨h.pxEndAddr, 0⟩ : BlockLink_t)]) by simp]
  rw [mallocFind_found pre c _ hpre (by omega)]
  simp only
  rw [if_pos hcne]
  rw [hsub, if_neg (by omega)]
  simp

theorem mallocInner_eq_split (h : Heap4) (w lo : Nat)
    (bs pre post : List BlockLink_t) (c : BlockLink_t)
    (hshape : h.freeList = bs ++ [⟨h.pxEndAddr, 0⟩])
    (hbs : bs = pre ++ c :: post)
    (hok : ∀ b ∈ bs, blockOK lo h.pxEndAddr b)
    (hch : List.Chain' gapR bs)
    (hlo : 0 < lo) (hspan : h.pxEndAddr ≤ lo + configTOTAL_HEAP_SIZE)
    (hpre : ∀ b ∈ pre, b.size < w)
    (hvalid : heapBLOCK_SIZE_IS_VALID w = true)
    (hwpos : 0 < w) (hwle : w ≤ h.xFreeBytesRemaining)
    (hsplit : heap_minimum_block_size < c.size - w) :
    mallocInner h w =
      ({ h with
          freeList := (pre ++ ⟨c.addr + w, c.size - w⟩ :: post) ++ [⟨h.pxEndAddr, 0⟩],
          xFreeBytesRemaining := sub32 h.xFreeBytesRemaining w,
          xMinimumEverFreeBytesRemaining :=
            if sub32 h.xFreeBytesRemaining w < h.xMinimumEverFreeBytesRemaining
            then sub32 h.xFreeBytesRemaining w
            else h.xMinimumEverFreeBytesRemaining,
          allocated := ⟨c.addr, w ||| heapBLOCK_ALLOCATED_BITMASK⟩ :: h.allocated,
          xNumberOfSuccessfulAllocations := add32 h.xNumberOfSuccessfulAllocations 1 },
       some (c.addr + size_of_heap_block_linklist_element)) := by
  have hTOT : configTOTAL_HEAP_SIZE = 204800 := by decide
  have hCARD : size_t_card = 4294967296 := by decide
  have hMIN : heap_minimum_block_size = 16 := by decide
  obtain ⟨hc1, hc2, hc3, hc4, hc5⟩ := hok c (by simp [hbs])
  have hcsz : c.size < size_t_card := by omega
  have hcne : c.addr ≠ h.pxEndAddr := by omega
  have hcfit : w ≤ c.size := by omega
  have hsub : sub32 c.size w = c.size - w := sub32_eq hcfit hcsz
  have hpw : bs.Pairwise gapR := List.chain'_iff_pairwise.mp hch
  have hgapprec : ∀ x ∈ pre, gapR x c := by
    intro x hx
    rw [hbs] at hpw
    exact (List.pairwise_append.mp hpw).2.2 x hx c (by simp)
  have hgapcpost : ∀ y ∈ post, gapR c y := by
    intro y hy
    rw [hbs] at hpw
    exact (List.pairwise_cons.mp (List.pairwise_append.mp hpw).2.1).1 y hy
  unfold mallocInner
  rw [if_pos hvalid, if_pos ⟨hwpos, hwle⟩, hshape, hbs]
  rw [show (pre ++ c :: post) ++ [(⟨h.pxEndAddr, 0⟩ : BlockLink_t)] =
        pre ++ c :: (post ++ [(⟨h.pxEndAddr, 0⟩ : BlockLink_t)]) by simp]
  rw [mallocFind_found pre c _ hpre (by omega)]
  simp only
  rw [if_pos hcne]
  rw [hsub, if_pos (by omega)]
  unfold prvInsertBlockIntoFreeList
  simp only
  have hins : insertLoop ⟨0, 0⟩ (pre ++ (post ++ [(⟨h.pxEndAddr, 0⟩ : BlockLink_t)]))
      ⟨c.addr + w, c.size - w⟩ h.pxEndAddr =
      ⟨0, 0⟩ :: (pre ++ (⟨c.addr + w, c.size - w⟩ : BlockLink_t)
        :: (post ++ [(⟨h.pxEndAddr, 0⟩ : BlockLink_t)])) := by
    apply insertLoop_nomerge
    · intro a ha
      have := hgapprec a ha
      unfold gapR at this
      simp only
      omega
    · intro a ha
      have := hgapprec a ha
      unfold gapR at this
      simp only
      omega
    · simp only
      omega
    · intro q hq
      rcases post with _ | ⟨c₂, post'⟩
      · simp at hq
        subst hq
        refine ⟨by simp only [not_lt]; omega, Or.inr rfl⟩
      · simp at hq
        subst hq
        have := hgapcpost c₂ (by simp)
        unfold gapR at this
        obtain ⟨hq1, hq2, hq3, hq4, hq5⟩ := hok c₂ (by simp [hbs])
        refine ⟨by simp only [not_lt]; omega, Or.inl (by simp only; omega)⟩
    · simp
  rw [hins]
  simp

/-! ### Preservation of the invariant by the heap operations -/

theorem first_split {P : BlockLink_t → Prop} [DecidablePred P] {bs : List BlockLink_t}
    (hex : ∃ b ∈ bs, P b) :
    ∃ pre c post, bs = pre ++ c :: post ∧ (∀ x ∈ pre, ¬ P x) ∧ P c := by
  induction bs with
  | nil => simp at hex
  | cons b bs ih =>
      by_cases hb : P b
      · exact ⟨[], b, bs, by simp, by simp, hb⟩
      · have hex' : ∃ x ∈ bs, P x := by
          obtain ⟨x, hx, hPx⟩ := hex
          rcases List.mem_cons.mp hx with h1 | h1
          · subst h1; exact absurd hPx hb
          · exact ⟨x, h1, hPx⟩
        obtain ⟨pre, c, post, h1, h2, h3⟩ := ih hex'
        refine ⟨b :: pre, c, post, by simp [h1], ?_, h3⟩
        intro x hx
        rcases List.mem_cons.mp hx with h4 | h4
        · subst h4; exact hb
        · exact h2 x h4

theorem lookupAlloc_split {l : List BlockLink_t} {a s : Nat}
    (h : lookupAlloc l a = some s) :
    ∃ l1 l2, l = l1 ++ (⟨a, s⟩ : BlockLink_t) :: l2 ∧ removeAlloc l a = l1 ++ l2 ∧
      (∀ x ∈ l1, x.addr ≠ a) := by
  induction l with
  | nil => simp [lookupAlloc] at h
  | cons b l ih =>
      by_cases hb : b.addr = a
      · unfold lookupAlloc at h
        rw [if_pos hb] at h
        have hbeq : b = (⟨a, s⟩ : BlockLink_t) := by
          cases b
          simp at hb h ⊢
          exact ⟨hb, h⟩
        refine ⟨[], l, by simp [hbeq], ?_, by simp⟩
        unfold removeAlloc
        rw [if_pos hb]
        simp
      · unfold lookupAlloc at h
        rw [if_neg hb] at h
        obtain ⟨l1, l2, h1, h2, h3⟩ := ih h
        refine ⟨b :: l1, l2, by simp [h1], ?_, ?_⟩
        · unfold removeAlloc
          rw [if_neg hb, h2]
          simp
        · intro x hx
          rcases List.mem_cons.mp hx with h4 | h4
          · subst h4; exact hb
          · exact h3 x h4

theorem allocDisj_symm {p q : BlockLink_t} (h : allocDisj p q) : allocDisj q p := by
  intro x hx hq
  exact h x hq hx

theorem removeAlloc_sublist (l : List BlockLink_t) (a : Nat) :
    List.Sublist (removeAlloc l a) l := by
  induction l with
  | nil => simp [removeAlloc]
  | cons b l ih =>
      unfold removeAlloc
      by_cases hb : b.addr = a
      · rw [if_pos hb]
        exact List.sublist_cons_of_sublist b (List.Sublist.refl l)
      · rw [if_neg hb]
        exact List.Sublist.cons₂ b ih


theorem inv_malloc (lo : Nat) (h : Heap4) (hInv : Inv lo h) (n : Nat) :
    Inv lo (pvPortMalloc h n).1 := by
  have hTOT : configTOTAL_HEAP_SIZE = 204800 := by decide
  have hCARD : size_t_card = 4294967296 := by decide
  have hMIN : heap_minimum_block_size = 16 := by decide
  unfold pvPortMalloc
  by_cases hv : heapBLOCK_SIZE_IS_VALID (xAdjustedSize n) = true
  case neg => rw [mallocInner_invalid h _ hv]; exact hInv
  by_cases hr : 0 < xAdjustedSize n ∧ xAdjustedSize n ≤ h.xFreeBytesRemaining
  case neg => rw [mallocInner_reject h _ hr]; exact hInv
  obtain ⟨hwpos, hwle⟩ := hr
  obtain ⟨hw8, hw16, hwmax⟩ := xAdjustedSize_pos_facts hwpos
  set w := xAdjustedSize n with hwdef
  have hw32 : w < size_t_card := by
    have : heapSIZE_MAX = 4294967295 := by decide
    omega
  have hw31 : w < 2 ^ 31 := (valid_iff hw32).mp hv
  obtain ⟨bs, hshape, hok, hch, hsum⟩ := hInv.shape
  have hfree_le := inv_free_lt hInv
  by_cases hfit : ∃ b ∈ bs, w ≤ b.size
  case neg =>
    push_neg at hfit
    rw [mallocInner_nofit h w bs hshape (fun b hb => hfit b hb)]
    exact hInv
  obtain ⟨pre, c, post, hbs, hpre0, hcfit⟩ := first_split hfit
  have hpre : ∀ b ∈ pre, b.size < w := fun b hb => lt_of_not_le (hpre0 b hb)
  obtain ⟨hc1, hc2, hc3, hc4, hc5⟩ := hok c (by simp [hbs])
  have hcsz : c.size ≤ 204800 := by
    have := hInv.end_span
    omega
  have hfree32 : h.xFreeBytesRemaining < size_t_card := by omega
  have hsubw : sub32 h.xFreeBytesRemaining w = h.xFreeBytesRemaining - w :=
    sub32_eq hwle hfree32
  have hpw := List.chain'_iff_pairwise.mp hch
  have hpwsplit := List.pairwise_append.mp (hbs ▸ hpw)
  have hpwpre : pre.Pairwise gapR := hpwsplit.1
  have hpwcpost : (c :: post).Pairwise gapR := hpwsplit.2.1
  have hcross : ∀ x ∈ pre, ∀ y ∈ c :: post, gapR x y := hpwsplit.2.2
  have hgapcpost : ∀ y ∈ post, gapR c y := (List.pairwise_cons.mp hpwcpost).1
  have hpwpost : post.Pairwise gapR := (List.pairwise_cons.mp hpwcpost).2
  have hsumdec : h.xFreeBytesRemaining =
      (pre.map (·.size)).sum + c.size + (post.map (·.size)).sum := by
    rw [hsum, hbs]
    simp [List.map_append]
    omega
  have hspan := hInv.end_span
  by_cases hsp : heap_minimum_block_size < c.size - w
  · rw [mallocInner_eq_split h w lo bs pre post c hshape hbs hok hch hInv.lo_pos
        hspan hpre hv hwpos hwle hsp]
    rw [hsubw]
    have hwc : w < c.size := by omega
    have hrok : blockOK lo h.pxEndAddr ⟨c.addr + w, c.size - w⟩ := by
      refine ⟨by simp only; omega, by simp only; omega, by simp only; omega,
        by simp only; omega, by simp only; omega⟩
    refine ⟨hInv.lo_pos, hInv.lo_align, hInv.end_align, hInv.end_lo, hInv.end_span,
        ?_, ?_, ?_, ?_, ?_⟩
    · -- shape
      refine ⟨pre ++ ⟨c.addr + w, c.size - w⟩ :: post, rfl, ?_, ?_, ?_⟩
      · intro b hb
        rcases List.mem_append.mp hb with hb0 | hb1
        · exact hok b (by simp [hbs, hb0])
        · rcases List.mem_cons.mp hb1 with hb2 | hb2
          · subst hb2; exact hrok
          · exact hok b (by simp [hbs, hb2])
      · rw [List.chain'_iff_pairwise, List.pairwise_append]
        refine ⟨hpwpre, ?_, ?_⟩
        · rw [List.pairwise_cons]
          refine ⟨?_, hpwpost⟩
          intro y hy
          have := hgapcpost y hy
          unfold gapR at *
          simp only
          omega
        · intro x hx y hy
          rcases List.mem_cons.mp hy with hy1 | hy1
          · subst hy1
            have := hcross x hx c (by simp)
            unfold gapR at *
            simp only
            omega
          · exact hcross x hx y (by simp [hy1])
      · simp only [List.map_append, List.map_cons, List.sum_append, List.sum_cons]
        omega
    · -- alloc_ok
      intro a ha
      rcases List.mem_cons.mp ha with ha1 | ha1
      · subst ha1
        exact ⟨w, rfl, hw31,
          by simp only; omega, by simp only; omega, by simp only; exact hc3,
          by simp only; exact hw8, by simp only; omega⟩
      · obtain ⟨m, hm1, hm2, hm3⟩ := hInv.alloc_ok a ha1
        exact ⟨m, hm1, hm2, hm3⟩
    · -- alloc_disj_free
      intro a ha f hf x hx
      rcases List.mem_cons.mp ha with ha1 | ha1
      · subst ha1
        have hmask : maskedSize (⟨c.addr, w ||| heapBLOCK_ALLOCATED_BITMASK⟩ : BlockLink_t) = w := by
          unfold maskedSize
          exact or_bitmask_and_low hw31
        rw [hmask] at hx
        obtain ⟨hx1, hx2⟩ := hx
        simp only at hx1 hx2
        rcases List.mem_append.mp hf with hf0 | hf1
        · rcases List.mem_append.mp hf0 with hf2 | hf3
          · -- f in pre
            have := hcross f hf2 c (by simp)
            unfold gapR at this
            intro hinf
            obtain ⟨hinf1, hinf2⟩ := hinf
            omega
          · rcases List.mem_cons.mp hf3 with hf4 | hf4
            · subst hf4
              intro hinf
              obtain ⟨hinf1, hinf2⟩ := hinf
              simp only at hinf1 hinf2
              omega
            · have := hgapcpost f hf4
              unfold gapR at this
              intro hinf
              obtain ⟨hinf1, hinf2⟩ := hinf
              omega
        · simp at hf1
          subst hf1
          intro hinf
          obtain ⟨hinf1, hinf2⟩ := hinf
          simp only at hinf1 hinf2
          omega
      · -- old allocated block versus the new free list
        intro hinf
        rcases List.mem_append.mp hf with hf0 | hf1
        · rcases List.mem_append.mp hf0 with hf2 | hf3
          · exact hInv.alloc_disj_free a ha1 f (by rw [hshape, hbs]; simp [hf2]) x hx hinf
          · rcases List.mem_cons.mp hf3 with hf4 | hf4
            · subst hf4
              obtain ⟨hinf1, hinf2⟩ := hinf
              simp only at hinf1 hinf2
              have hinc : inB x c := by
                refine ⟨by omega, by omega⟩
              exact hInv.alloc_disj_free a ha1 c (by rw [hshape, hbs]; simp) x hx hinc
            · exact hInv.alloc_disj_free a ha1 f (by rw [hshape, hbs]; simp [hf4]) x hx hinf
        · simp at hf1
          subst hf1
          obtain ⟨hinf1, hinf2⟩ := hinf
          simp only at hinf1 hinf2
          omega
    · -- alloc_pair
      rw [List.pairwise_cons]
      refine ⟨?_, hInv.alloc_pair⟩
      intro a ha x hx
      have hmask : maskedSize (⟨c.addr, w ||| heapBLOCK_ALLOCATED_BITMASK⟩ : BlockLink_t) = w := by
        unfold maskedSize
        exact or_bitmask_and_low hw31
      rw [hmask] at hx
      obtain ⟨hx1, hx2⟩ := hx
      simp only at hx1 hx2
      have hinc : inB x c := ⟨by omega, by omega⟩
      exact fun hxa => hInv.alloc_disj_free a ha c (by rw [hshape, hbs]; simp) x hxa hinc
    · -- min_le
      simp only
      by_cases hlt : h.xFreeBytesRemaining - w < h.xMinimumEverFreeBytesRemaining
      · rw [if_pos hlt]
      · rw [if_neg hlt]
        omega
  · rw [mallocInner_eq_nosplit h w lo bs pre post c hshape hbs hok hInv.lo_pos
        hspan hpre hcfit hv hwpos hwle (by omega)]
    have hcle : c.size ≤ h.xFreeBytesRemaining := by omega
    have hsubc : sub32 h.xFreeBytesRemaining c.size = h.xFreeBytesRemaining - c.size :=
      sub32_eq hcle hfree32
    rw [hsubc]
    have hc31 : c.size < 2 ^ 31 := by omega
    refine ⟨hInv.lo_pos, hInv.lo_align, hInv.end_align, hInv.end_lo, hInv.end_span,
        ?_, ?_, ?_, ?_, ?_⟩
    · -- shape
      refine ⟨pre ++ post, rfl, ?_, ?_, ?_⟩
      · intro b hb
        rcases List.mem_append.mp hb with hb0 | hb1
        · exact hok b (by simp [hbs, hb0])
        · exact hok b (by simp [hbs, hb1])
      · rw [List.chain'_iff_pairwise, List.pairwise_append]
        exact ⟨hpwpre, hpwpost, fun x hx y hy => hcross x hx y (by simp [hy])⟩
      · simp only [List.map_append, List.sum_append]
        omega
    · -- alloc_ok
      intro a ha
      rcases List.mem_cons.mp ha with ha1 | ha1
      · subst ha1
        refine ⟨c.size, rfl, hc31, ?_⟩
        exact ⟨hc1, hc2, hc3, hc4, hc5⟩
      · exact hInv.alloc_ok a ha1
    · -- alloc_disj_free
      intro a ha f hf x hx
      rcases List.mem_cons.mp ha with ha1 | ha1
      · subst ha1
        have hmask : maskedSize (⟨c.addr, c.size ||| heapBLOCK_ALLOCATED_BITMASK⟩ : BlockLink_t) = c.size := by
          unfold maskedSize
          exact or_bitmask_and_low hc31
        rw [hmask] at hx
        obtain ⟨hx1, hx2⟩ := hx
        simp only at hx1 hx2
        rcases List.mem_append.mp hf with hf0 | hf1
        · rcases List.mem_append.mp hf0 with hf2 | hf3
          · have := hcross f hf2 c (by simp)
            unfold gapR at this
            intro hinf
            obtain ⟨hinf1, hinf2⟩ := hinf
            omega
          · have := hgapcpost f hf3
            unfold gapR at this
            intro hinf
            obtain ⟨hinf1, hinf2⟩ := hinf
            omega
        · simp at hf1
          subst hf1
          intro hinf
          obtain ⟨hinf1, hinf2⟩ := hinf
          simp only at hinf1 hinf2
          omega
      · intro hinf
        rcases List.mem_append.mp hf with hf0 | hf1
        · rcases List.mem_append.mp hf0 with hf2 | hf3
          · exact hInv.alloc_disj_free a ha1 f (by rw [hshape, hbs]; simp [hf2]) x hx hinf
          · exact hInv.alloc_disj_free a ha1 f (by rw [hshape, hbs]; simp [hf3]) x hx hinf
        · simp at hf1
          subst hf1
          obtain ⟨hinf1, hinf2⟩ := hinf
          simp only at hinf1 hinf2
          omega
    · -- alloc_pair
      rw [List.pairwise_cons]
      refine ⟨?_, hInv.alloc_pair⟩
      intro a ha x hx
      have hmask : maskedSize (⟨c.addr, c.size ||| heapBLOCK_ALLOCATED_BITMASK⟩ : BlockLink_t) = c.size := by
        unfold maskedSize
        exact or_bitmask_and_low hc31
      rw [hmask] at hx
      have hinc : inB x c := by
        obtain ⟨hx1, hx2⟩ := hx
        exact ⟨hx1, hx2⟩
      exact fun hxa => hInv.alloc_disj_free a ha c (by rw [hshape, hbs]; simp) x hxa hinc
    · -- min_le
      simp only
      by_cases hlt : h.xFreeBytesRemaining - c.size < h.xMinimumEverFreeBytesRemaining
      · rw [if_pos hlt]
      · rw [if_neg hlt]
        omega


theorem inv_free (lo : Nat) (h : Heap4) (hInv : Inv lo h) (p : Nat) :
    Inv lo (vPortFree h p) := by
  have hTOT : configTOTAL_HEAP_SIZE = 204800 := by decide
  have hCARD : size_t_card = 4294967296 := by decide
  have hMIN : heap_minimum_block_size = 16 := by decide
  unfold vPortFree
  by_cases hp : p ≠ 0
  case neg => rw [if_neg hp]; exact hInv
  rw [if_pos hp]
  cases hlk : lookupAlloc h.allocated (p - size_of_heap_block_linklist_element) with
  | none => simp only [hlk]; exact hInv
  | some s =>
    obtain ⟨l1, l2, hsplit, hrm, hneq⟩ := lookupAlloc_split hlk
    have hmem : (⟨p - size_of_heap_block_linklist_element, s⟩ : BlockLink_t) ∈ h.allocated := by
      rw [hsplit]; simp
    obtain ⟨m, hm1, hm2, hm3⟩ := hInv.alloc_ok _ hmem
    simp only at hm1 hm3
    have hbit : s &&& heapBLOCK_ALLOCATED_BITMASK ≠ 0 := by
      rw [hm1]; exact or_bitmask_and_bit m
    simp only [hlk]
    rw [if_pos hbit]
    have hs' : s &&& (heapBLOCK_ALLOCATED_BITMASK - 1) = m := by
      rw [hm1]; exact or_bitmask_and_low hm2
    rw [hs']
    obtain ⟨bs, hshape, hok, hch, hsum⟩ := hInv.shape
    have hfree_le := inv_free_lt hInv
    have hmsz : m ≤ configTOTAL_HEAP_SIZE := blockOK_size_le hm3 hInv.end_span
    have hdisj : ∀ b ∈ bs, ∀ x,
        inB x ⟨p - size_of_heap_block_linklist_element, m⟩ → ¬ inB x b := by
      intro b hb x hx
      have hmask : maskedSize (⟨p - size_of_heap_block_linklist_element, s⟩ : BlockLink_t) = m :=
        blockOK_maskedSize hm1 hm2 hm3
      have := hInv.alloc_disj_free _ hmem b (by rw [hshape]; simp [hb]) x
      rw [hmask] at this
      exact this hx
    obtain ⟨bs', hloop, hok', hch', hsum', hcov'⟩ :=
      insert_ok bs ⟨p - size_of_heap_block_linklist_element, m⟩ lo h.pxEndAddr
        hInv.lo_pos hInv.end_span hok hch hm3 hdisj
    unfold prvInsertBlockIntoFreeList
    simp only [hshape]
    rw [hloop]
    simp only [List.tail_cons]
    have hadd : add32 h.xFreeBytesRemaining m = h.xFreeBytesRemaining + m :=
      add32_eq (by omega)
    -- pairwise decomposition of the allocated list around the freed entry
    have hpair := hInv.alloc_pair
    rw [hsplit] at hpair
    have hpairsplit := List.pairwise_append.mp hpair
    have hd1 : ∀ a ∈ l1, allocDisj a ⟨p - size_of_heap_block_linklist_element, s⟩ :=
      fun a ha => hpairsplit.2.2 a ha _ (by simp)
    have hd2 : ∀ a ∈ l2, allocDisj (⟨p - size_of_heap_block_linklist_element, s⟩ : BlockLink_t) a :=
      fun a ha => (List.pairwise_cons.mp hpairsplit.2.1).1 a ha
    have hsub : ∀ a ∈ removeAlloc h.allocated (p - size_of_heap_block_linklist_element),
        a ∈ h.allocated := fun a ha =>
      (removeAlloc_sublist h.allocated (p - size_of_heap_block_linklist_element)).subset ha
    refine ⟨hInv.lo_pos, hInv.lo_align, hInv.end_align, hInv.end_lo, hInv.end_span,
        ?_, ?_, ?_, ?_, ?_⟩
    · refine ⟨bs', rfl, hok', hch', ?_⟩
      simp only [hsum']
      rw [← hsum]
      exact hadd
    · intro a ha
      exact hInv.alloc_ok a (hsub a ha)
    · intro a ha f hf x hx hinf
      rcases List.mem_append.mp hf with hf0 | hf1
      · rcases hcov' f hf0 x hinf with hxin | hxcov
        · -- x lies in the freed block: contradict allocated-pairwise disjointness
          have hmaske : maskedSize (⟨p - size_of_heap_block_linklist_element, s⟩ : BlockLink_t) = m :=
            blockOK_maskedSize hm1 hm2 hm3
          rw [hrm] at ha
          rcases List.mem_append.mp ha with ha1 | ha2
          · have := hd1 a ha1 x hx
            rw [hmaske] at this
            exact this hxin
          · have := allocDisj_symm (hd2 a ha2) x hx
            rw [hmaske] at this
            exact this hxin
        · obtain ⟨b0, hb0, hxb0⟩ := hxcov
          exact hInv.alloc_disj_free a (hsub a ha) b0 (by rw [hshape]; simp [hb0]) x hx hxb0
      · simp at hf1
        subst hf1
        obtain ⟨hinf1, hinf2⟩ := hinf
        simp only at hinf1 hinf2
        omega
    · exact List.Pairwise.sublist (removeAlloc_sublist _ _) hInv.alloc_pair
    · simp only
      have := hInv.min_le
      rw [hadd]
      omega


theorem inv_construct (base : Nat) (hpos : 0 < base)
    (hfit : base + configTOTAL_HEAP_SIZE ≤ size_t_card) :
    Inv (alignedStart base) (Heap4.construct base) := by
  have hTOT : configTOTAL_HEAP_SIZE = 204800 := by decide
  have hCARD : size_t_card = 4294967296 := by decide
  have hMIN : heap_minimum_block_size = 16 := by decide
  have hsizeof : size_of_heap_block_linklist_element = 8 := by decide
  have hfit' : base + 204800 ≤ 4294967296 := by omega
  set A := alignedStart base with hA
  have hA1 : base ≤ A ∧ A ≤ base + 7 ∧ A % 8 = 0 := by
    rw [hA]
    unfold alignedStart portBYTE_ALIGNMENT_MASK portBYTE_ALIGNMENT
    rw [and_seven_eq_mod]
    by_cases hm : base % 8 ≠ 0
    · rw [if_pos hm]
      rw [and_alignDownMask32_of_lt (by omega : base + 7 < size_t_card)]
      omega
    · rw [if_neg hm]
      omega
  obtain ⟨hA2, hA3, hA4⟩ := hA1
  set T := (if base &&& portBYTE_ALIGNMENT_MASK ≠ 0
      then configTOTAL_HEAP_SIZE - (A - base) else configTOTAL_HEAP_SIZE) with hT
  have hAT : A + T = base + 204800 := by
    rw [hT]
    unfold portBYTE_ALIGNMENT_MASK
    rw [and_seven_eq_mod]
    by_cases hm : base % 8 ≠ 0
    · rw [if_pos hm]
      omega
    · rw [if_neg hm]
      have hAb : A = base := by
        rw [hA]
        unfold alignedStart portBYTE_ALIGNMENT_MASK
        rw [and_seven_eq_mod, if_neg hm]
      omega
  set E := (A + T - size_of_heap_block_linklist_element) &&& alignDownMask32 with hE
  have hEeq : E = (base + 204792) - (base + 204792) % 8 := by
    rw [hE, hsizeof, (show A + T - 8 = base + 204792 by omega),
      and_alignDownMask32_of_lt (by omega)]
  have hE8 : E % 8 = 0 := by omega
  have hAE : A + 16 ≤ E := by omega
  have hEspan : E ≤ A + 204800 := by omega
  have hE32 : E < size_t_card := by omega
  have hfs : sub32 E A = E - A := sub32_eq (by omega) hE32
  have hcon : Heap4.construct base =
      { freeList := [⟨A, E - A⟩, ⟨E, 0⟩], pxEndAddr := E, allocated := [],
        xFreeBytesRemaining := E - A, xMinimumEverFreeBytesRemaining := E - A,
        xNumberOfSuccessfulAllocations := 0, xNumberOfSuccessfulFrees := 0 } := by
    simp only [Heap4.construct]
    rw [← hA, ← hT, ← hE, hfs]
  rw [hcon]
  refine ⟨by omega, hA4, hE8, by show A + heap_minimum_block_size ≤ E; omega,
    by show E ≤ A + configTOTAL_HEAP_SIZE; omega, ?_, by simp, by simp, by simp, le_refl _⟩
  refine ⟨[⟨A, E - A⟩], by simp, ?_, by simp, by simp⟩
  intro b hb
  simp at hb
  subst hb
  exact ⟨le_refl _, by simp only; omega, hA4, by simp only; omega, by simp only; omega⟩

theorem reachable_inv {lo : Nat} {h : Heap4} (hr : Reachable lo h) : Inv lo h := by
  induction hr with
  | init base hpos hfit => exact inv_construct base hpos hfit
  | step lo h op hr ih =>
      cases op with
      | malloc n => exact inv_malloc lo h ih n
      | free p => exact inv_free lo h ih p

/-! ### Helper monotonicity lemmas for the low-water mark -/

/-- Malloc never increases the low-water mark, for any state and request. -/
theorem malloc_min_mono (h : Heap4) (n : Nat) :
    (pvPortMalloc h n).1.xMinimumEverFreeBytesRemaining ≤
      h.xMinimumEverFreeBytesRemaining := by
  unfold pvPortMalloc mallocInner
  repeat' split
  all_goals simp only
  all_goals try exact le_refl _
  all_goals split
  all_goals omega

/-- Free never touches the low-water mark. -/
theorem free_min_eq (h : Heap4) (p : Nat) :
    (vPortFree h p).xMinimumEverFreeBytesRemaining =
      h.xMinimumEverFreeBytesRemaining := by
  unfold vPortFree
  by_cases hp : p ≠ 0
  · rw [if_pos hp]
    cases hlk : lookupAlloc h.allocated (p - size_of_heap_block_linklist_element) with
    | none => simp only [hlk]
    | some s =>
        simp only [hlk]
        by_cases hbit : s &&& heapBLOCK_ALLOCATED_BITMASK ≠ 0
        · rw [if_pos hbit]
          rfl
        · rw [if_neg hbit]
  · rw [if_neg hp]

/-! ### The claim theorems -/

/-- Claim C1: for every request with adjusted size `w > 0` that passes the
validity checks, Malloc selects the first (lowest-address) free block of the
list whose size is at least `w`; if the selected block's leftover exceeds the
minimum block size, it is split into an allocated block of exactly `w` bytes
and a free remainder of `size - w` bytes re-inserted into the free list;
otherwise the block is handed out whole and unsplit; if no block qualifies
(the walk reaches the tail sentinel), Malloc returns null even when the total
free byte count is sufficient. -/
theorem claimC1_first_fit_and_split (lo : Nat) (h : Heap4) (w : Nat) (bs : List BlockLink_t)
    (hr : Reachable lo h)
    (hshape : h.freeList = bs ++ [⟨h.pxEndAddr, 0⟩])
    (hvalid : heapBLOCK_SIZE_IS_VALID w = true)
    (hwpos : 0 < w) (hwle : w ≤ h.xFreeBytesRemaining) :
    ((∀ b ∈ bs, b.size < w) → mallocInner h w = (h, none)) ∧
    (∀ pre c post, bs = pre ++ c :: post → (∀ b ∈ pre, b.size < w) → w ≤ c.size →
      (mallocInner h w).2 = some (c.addr + size_of_heap_block_linklist_element) ∧
      (∀ b ∈ bs, w ≤ b.size → c.addr ≤ b.addr) ∧
      (heap_minimum_block_size < c.size - w →
        (mallocInner h w).1.freeList =
          (pre ++ ⟨c.addr + w, c.size - w⟩ :: post) ++ [⟨h.pxEndAddr, 0⟩] ∧
        (mallocInner h w).1.allocated =
          ⟨c.addr, w ||| heapBLOCK_ALLOCATED_BITMASK⟩ :: h.allocated ∧
        (mallocInner h w).1.xFreeBytesRemaining = h.xFreeBytesRemaining - w) ∧
      (c.size - w ≤ heap_minimum_block_size →
        (mallocInner h w).1.freeList = (pre ++ post) ++ [⟨h.pxEndAddr, 0⟩] ∧
        (mallocInner h w).1.allocated =
          ⟨c.addr, c.size ||| heapBLOCK_ALLOCATED_BITMASK⟩ :: h.allocated ∧
        (mallocInner h w).1.xFreeBytesRemaining =
          h.xFreeBytesRemaining - c.size)) := by
  have hTOT : configTOTAL_HEAP_SIZE = 204800 := by decide
  have hCARD : size_t_card = 4294967296 := by decide
  have hMIN : heap_minimum_block_size = 16 := by decide
  have hInv := reachable_inv hr
  obtain ⟨bs0, hshape0, hok0, hch0, hsum0⟩ := hInv.shape
  have hbseq : bs = bs0 := by
    apply List.append_cancel_right
    rw [← hshape, ← hshape0]
  subst hbseq
  have hfree_le := inv_free_lt hInv
  have hfree32 : h.xFreeBytesRemaining < size_t_card := by omega
  constructor
  · intro hsmall
    exact mallocInner_nofit h w bs hshape hsmall
  · intro pre c post hbs hpre hcfit
    obtain ⟨hc1, hc2, hc3, hc4, hc5⟩ := hok0 c (by simp [hbs])
    have hcsz : c.size ≤ 204800 := by
      have := hInv.end_span
      omega
    have hlowest : ∀ b ∈ bs, w ≤ b.size → c.addr ≤ b.addr := by
      intro b hb hwb
      have hpw := List.chain'_iff_pairwise.mp hch0
      rw [hbs] at hpw
      have hsplit2 := List.pairwise_append.mp hpw
      rw [hbs] at hb
      rcases List.mem_append.mp hb with hb0 | hb1
      · exact absurd hwb (by have := hpre b hb0; omega)
      · rcases List.mem_cons.mp hb1 with hb2 | hb2
        · subst hb2; exact le_refl _
        · have := (List.pairwise_cons.mp hsplit2.2.1).1 b hb2
          unfold gapR at this
          omega
    refine ⟨?_, hlowest, ?_, ?_⟩
    · by_cases hsp : heap_minimum_block_size < c.size - w
      · rw [mallocInner_eq_split h w lo bs pre post c hshape hbs hok0 hch0
            hInv.lo_pos hInv.end_span hpre hvalid hwpos hwle hsp]
      · rw [mallocInner_eq_nosplit h w lo bs pre post c hshape hbs hok0
            hInv.lo_pos hInv.end_span hpre hcfit hvalid hwpos hwle (by omega)]
    · intro hsp
      rw [mallocInner_eq_split h w lo bs pre post c hshape hbs hok0 hch0
          hInv.lo_pos hInv.end_span hpre hvalid hwpos hwle hsp]
      refine ⟨rfl, rfl, ?_⟩
      exact sub32_eq hwle hfree32
    · intro hsp
      rw [mallocInner_eq_nosplit h w lo bs pre post c hshape hbs hok0
          hInv.lo_pos hInv.end_span hpre hcfit hvalid hwpos hwle hsp]
      refine ⟨rfl, rfl, ?_⟩
      have hcle : c.size ≤ h.xFreeBytesRemaining := by
        rw [hsum0, hbs]
        simp [List.map_append]
        omega
      exact sub32_eq hcle hfree32

/-- Witness for claim C1 on a freshly constructed heap: the adjusted request
24 is served from the single free block at address 8, split with pointer 16
and remainder block at 32. -/
theorem claimC1_witness :
    (mallocInner (Heap4.construct 8) 24).2 = some 16 ∧
    (mallocInner (Heap4.construct 8) 24).1.freeList =
      [⟨32, 204768⟩, ⟨204800, 0⟩] := by
  have hc := claimC1_first_fit_and_split (alignedStart 8) (Heap4.construct 8) 24
      [⟨8, 204792⟩] (Reachable.init 8 (by decide) (by decide)) rfl (by decide)
      (by decide) (by decide)
  obtain ⟨hsome, _, hsplit, _⟩ := hc.2 [] ⟨8, 204792⟩ [] rfl (by simp) (by decide)
  obtain ⟨hfl, _, _⟩ := hsplit (by decide)
  constructor
  · rw [hsome]
    rfl
  · rw [hfl]
    rfl

/-- Claim C2: in every reachable state (hence after every completed Free and
after the insert performed by Malloc's split path), no two free blocks of the
list are memory-adjacent — between consecutive real free-list nodes there is
a strict address gap — and the tail sentinel survives, never merged into a
neighboring block; moreover every single `prvInsertBlockIntoFreeList` call on
a well-formed list preserves this. -/
theorem claimC2_no_adjacent_free :
    (∀ (lo : Nat) (h : Heap4), Reachable lo h →
      ∃ bs, h.freeList = bs ++ [⟨h.pxEndAddr, 0⟩] ∧ List.Chain' gapR bs) ∧
    (∀ (lo : Nat) (h : Heap4) (bs : List BlockLink_t) (ins : BlockLink_t),
      h.freeList = bs ++ [⟨h.pxEndAddr, 0⟩] →
      0 < lo → h.pxEndAddr ≤ lo + configTOTAL_HEAP_SIZE →
      (∀ b ∈ bs, blockOK lo h.pxEndAddr b) →
      List.Chain' gapR bs →
      blockOK lo h.pxEndAddr ins →
      (∀ b ∈ bs, ∀ x, inB x ins → ¬ inB x b) →
      ∃ bs', (prvInsertBlockIntoFreeList h ins).freeList =
          bs' ++ [⟨h.pxEndAddr, 0⟩] ∧ List.Chain' gapR bs') := by
  constructor
  · intro lo h hr
    obtain ⟨bs, h1, _, h3, _⟩ := (reachable_inv hr).shape
    exact ⟨bs, h1, h3⟩
  · intro lo h bs ins hshape hlo hspan hok hch hins hdisj
    obtain ⟨bs', hloop, _, hch', _, _⟩ :=
      insert_ok bs ins lo h.pxEndAddr hlo hspan hok hch hins hdisj
    refine ⟨bs', ?_, hch'⟩
    unfold prvInsertBlockIntoFreeList
    simp only [hshape]
    rw [hloop]
    rfl

/-- Witness for claim C2: the reachable conjunct at a freshly constructed
heap, and the insert conjunct on a concrete two-node list where the inserted
block is not adjacent to either neighbour. -/
theorem claimC2_witness :
    (∃ bs, (Heap4.construct 8).freeList =
        bs ++ [⟨(Heap4.construct 8).pxEndAddr, 0⟩] ∧ List.Chain' gapR bs) ∧
    (∃ bs', (prvInsertBlockIntoFreeList
        ⟨[⟨16, 16⟩, ⟨104, 0⟩], 104, [], 16, 0, 0, 0⟩ ⟨48, 16⟩).freeList =
        bs' ++ [⟨(⟨[⟨16, 16⟩, ⟨104, 0⟩], 104, [], 16, 0, 0, 0⟩ : Heap4).pxEndAddr, 0⟩] ∧
      List.Chain' gapR bs') := by
  constructor
  · exact claimC2_no_adjacent_free.1 (alignedStart 8) (Heap4.construct 8)
      (Reachable.init 8 (by decide) (by decide))
  · refine claimC2_no_adjacent_free.2 8 ⟨[⟨16, 16⟩, ⟨104, 0⟩], 104, [], 16, 0, 0, 0⟩
      [⟨16, 16⟩] ⟨48, 16⟩ rfl (by decide) (by decide) (by decide)
      (List.chain'_singleton _) (by decide) ?_
    intro b hb x hx hxb
    simp at hb
    subst hb
    obtain ⟨h1, h2⟩ := hx
    obtain ⟨h3, h4⟩ := hxb
    simp only at h1 h2 h3 h4
    omega

/-- Claim C3: in every state reachable from construction by Malloc and Free
calls, `xFreeBytesRemaining` equals the sum of the allocation-bit-masked
`_size` fields over all blocks reachable from the head sentinel via the
`_next_free_block` links, excluding the head and tail sentinels. -/
theorem claimC3_free_bytes_sum (lo : Nat) (h : Heap4) (hr : Reachable lo h) :
    h.xFreeBytesRemaining =
      ((h.freeList.dropLast).map
        (fun b => b.size &&& (heapBLOCK_ALLOCATED_BITMASK - 1))).sum := by
  have hTOT : configTOTAL_HEAP_SIZE = 204800 := by decide
  have hInv := reachable_inv hr
  obtain ⟨bs, hshape, hok, hch, hsum⟩ := hInv.shape
  rw [hshape, List.dropLast_concat]
  rw [hsum]
  congr 1
  apply List.map_congr_left
  intro b hb
  have hok' := hok b hb
  have hb31 : b.size < 2 ^ 31 := by
    have h1 := hok'.1
    have h2 := hok'.2.1
    have := hInv.end_span
    omega
  rw [bitmask_eq]
  exact (Nat.and_pow_two_sub_one_of_lt_two_pow hb31).symm

/-- Witness for claim C3 at a freshly constructed heap. -/
theorem claimC3_witness :
    (Heap4.construct 8).xFreeBytesRemaining =
      (((Heap4.construct 8).freeList.dropLast).map
        (fun b => b.size &&& (heapBLOCK_ALLOCATED_BITMASK - 1))).sum :=
  claimC3_free_bytes_sum (alignedStart 8) (Heap4.construct 8)
    (Reachable.init 8 (by decide) (by decide))

/-- Counterexample to claim C4 as stated: on a freshly constructed heap with
free memory available, `pvPortMalloc h 0` returns null and leaves the heap
unchanged, instead of succeeding with a header-only block. -/
theorem claimC4_counterexample :
    (pvPortMalloc (Heap4.construct 8) 0).2 = none ∧
    (pvPortMalloc (Heap4.construct 8) 0).1 = Heap4.construct 8 := ⟨rfl, rfl⟩

/-- Claim C4 (amended): a zero-byte Malloc request skips the size-adjustment
step, so the wanted size stays 0; the request is then rejected by the
`xWantedSize > 0` validity check and Malloc returns null with the heap state
unchanged — it does not allocate a header-only block. -/
theorem claimC4_malloc_zero_returns_null (h : Heap4) : pvPortMalloc h 0 = (h, none) := by
  unfold pvPortMalloc
  rw [xAdjustedSize_zero]
  exact mallocInner_reject h 0 (by simp)

/-- Claim C5: Malloc returns null and leaves the whole heap state (free byte
count, low-water mark, both counters and the free list) unchanged when the
size adjustment of a non-zero request would overflow (the size is forced to
0 instead of wrapping), when the adjusted size has its top allocation-flag
bit set, when the adjusted size is 0 or exceeds `xFreeBytesRemaining`, or
when the first-fit walk reaches the tail sentinel without finding a block of
adequate size. -/
theorem claimC5_malloc_failure_cases (lo : Nat) (h : Heap4) (n : Nat) (hr : Reachable lo h)
    (hcase :
      (0 < n ∧ heapADD_WILL_OVERFLOW n
        (size_of_heap_block_linklist_element + portBYTE_ALIGNMENT -
          (n &&& portBYTE_ALIGNMENT_MASK)) = true)
      ∨ ¬ heapBLOCK_SIZE_IS_VALID (xAdjustedSize n) = true
      ∨ xAdjustedSize n = 0
      ∨ h.xFreeBytesRemaining < xAdjustedSize n
      ∨ (∀ b ∈ h.freeList.dropLast, b.size < xAdjustedSize n)) :
    pvPortMalloc h n = (h, none) := by
  unfold pvPortMalloc
  rcases hcase with ⟨hn, hov⟩ | hinv | hzero | hbig | hsmall
  · have hz : xAdjustedSize n = 0 := by
      unfold xAdjustedSize
      rw [if_pos hn, if_pos hov]
    rw [hz]
    exact mallocInner_reject h 0 (by simp)
  · exact mallocInner_invalid h _ hinv
  · rw [hzero]
    exact mallocInner_reject h 0 (by simp)
  · exact mallocInner_reject h _ (by omega)
  · obtain ⟨bs, hshape, _, _, _⟩ := (reachable_inv hr).shape
    rw [hshape, List.dropLast_concat] at hsmall
    exact mallocInner_nofit h _ bs hshape hsmall

/-- Witness for claim C5: a request whose adjusted size exceeds the free byte
count of a freshly constructed heap is rejected with the state unchanged. -/
theorem claimC5_witness :
    pvPortMalloc (Heap4.construct 8) 204800 = (Heap4.construct 8, none) :=
  claimC5_malloc_failure_cases (alignedStart 8) (Heap4.construct 8) 204800
    (Reachable.init 8 (by decide) (by decide))
    (Or.inr (Or.inr (Or.inr (Or.inl (by decide)))))

/-- Claim C6: `pvPortCalloc` rejects exactly the requests whose byte-count
product overflows the 32-bit `size_t` range, returning null without calling
Malloc and without touching any heap state; otherwise it delegates to
`pvPortMalloc (xNum * xSize)` and, on success, zero-fills exactly
`xNum * xSize` bytes starting at the returned pointer. -/
theorem claimC6_calloc_overflow_and_delegation :
    ∀ (h : Heap4) (xNum xSize : Nat),
      (heapMULTIPLY_WILL_OVERFLOW xNum xSize = true ↔ heapSIZE_MAX < xNum * xSize) ∧
      (heapMULTIPLY_WILL_OVERFLOW xNum xSize = true →
        pvPortCalloc h xNum xSize = (h, none, none)) ∧
      (heapMULTIPLY_WILL_OVERFLOW xNum xSize = false →
        (pvPortCalloc h xNum xSize).1 = (pvPortMalloc h (xNum * xSize)).1 ∧
        (pvPortCalloc h xNum xSize).2.1 = (pvPortMalloc h (xNum * xSize)).2 ∧
        (∀ p, (pvPortMalloc h (xNum * xSize)).2 = some p →
          (pvPortCalloc h xNum xSize).2.2 = some (p, xNum * xSize)) ∧
        ((pvPortMalloc h (xNum * xSize)).2 = none →
          (pvPortCalloc h xNum xSize).2.2 = none)) := by
  intro h xNum xSize
  refine ⟨?_, ?_, ?_⟩
  · unfold heapMULTIPLY_WILL_OVERFLOW
    simp only [Bool.and_eq_true, decide_eq_true_eq]
    constructor
    · rintro ⟨hn, hs⟩
      have h1 : heapSIZE_MAX / xNum + 1 ≤ xSize := hs
      have h2 : xNum * (heapSIZE_MAX / xNum) + heapSIZE_MAX % xNum = heapSIZE_MAX :=
        Nat.div_add_mod _ _
      have h3 : heapSIZE_MAX % xNum < xNum := Nat.mod_lt _ hn
      calc heapSIZE_MAX < xNum * (heapSIZE_MAX / xNum) + xNum := by omega
      _ = xNum * (heapSIZE_MAX / xNum + 1) := by ring
      _ ≤ xNum * xSize := Nat.mul_le_mul_left _ h1
    · intro hlt
      have hn : 0 < xNum := by
        by_contra hz
        push_neg at hz
        interval_cases xNum
        simp at hlt
      refine ⟨hn, ?_⟩
      by_contra hle
      push_neg at hle
      have : xNum * xSize ≤ xNum * (heapSIZE_MAX / xNum) := Nat.mul_le_mul_left _ hle
      have h2 : xNum * (heapSIZE_MAX / xNum) ≤ heapSIZE_MAX := Nat.mul_div_le _ _
      omega
  · intro hov
    unfold pvPortCalloc
    rw [if_pos hov]
  · intro hov
    unfold pvPortCalloc
    rw [if_neg (by simp [hov])]
    cases hres : (pvPortMalloc h (xNum * xSize)).2 with
    | none =>
        simp only [hres]
        simp
    | some p =>
        simp only [hres]
        simp

/-- Witness for claim C6: an overflowing product is rejected with the heap
untouched, and a small request is delegated and zero-filled over exactly 32
bytes. -/
theorem claimC6_witness :
    pvPortCalloc (Heap4.construct 8) 2147483648 4 = (Heap4.construct 8, none, none) ∧
    (pvPortCalloc (Heap4.construct 8) 4 8).2.2 = some (16, 32) := by
  have h1 := claimC6_calloc_overflow_and_delegation (Heap4.construct 8) 2147483648 4
  have h2 := claimC6_calloc_overflow_and_delegation (Heap4.construct 8) 4 8
  refine ⟨h1.2.1 (by decide), ?_⟩
  exact (h2.2.2 (by decide)).2.2.1 16 (by decide)

/-- Claim C7: for every reachable heap state and every request size on which
Malloc succeeds with pointer `p`, immediately calling Free on `p` restores
`xFreeBytesRemaining` to its pre-allocation value and restores the free list
itself — the freed block re-merges fully with its neighbours, so in
particular the number of free-list blocks (excluding the sentinels) equals
its pre-allocation count. -/
theorem claimC7_malloc_free_roundtrip (lo : Nat) (h h1 h2 : Heap4) (n p : Nat)
    (hr : Reachable lo h)
    (hm : pvPortMalloc h n = (h1, some p))
    (hf : vPortFree h1 p = h2) :
    h2.xFreeBytesRemaining = h.xFreeBytesRemaining ∧
    h2.freeList = h.freeList ∧
    h2.freeList.dropLast.length = h.freeList.dropLast.length := by
  have hTOT : configTOTAL_HEAP_SIZE = 204800 := by decide
  have hCARD : size_t_card = 4294967296 := by decide
  have hMIN : heap_minimum_block_size = 16 := by decide
  have hsizeof : size_of_heap_block_linklist_element = 8 := by decide
  have hInv := reachable_inv hr
  unfold pvPortMalloc at hm
  by_cases hv : heapBLOCK_SIZE_IS_VALID (xAdjustedSize n) = true
  case neg => rw [mallocInner_invalid h _ hv] at hm; simp at hm
  by_cases hcond : 0 < xAdjustedSize n ∧ xAdjustedSize n ≤ h.xFreeBytesRemaining
  case neg => rw [mallocInner_reject h _ hcond] at hm; simp at hm
  obtain ⟨hwpos, hwle⟩ := hcond
  obtain ⟨hw8, hw16, hwmax⟩ := xAdjustedSize_pos_facts hwpos
  set w := xAdjustedSize n with hwdef
  have hw32 : w < size_t_card := by
    have : heapSIZE_MAX = 4294967295 := by decide
    omega
  have hw31 : w < 2 ^ 31 := (valid_iff hw32).mp hv
  obtain ⟨bs, hshape, hok, hch, hsum⟩ := hInv.shape
  have hfree_le := inv_free_lt hInv
  by_cases hfit : ∃ b ∈ bs, w ≤ b.size
  case neg =>
    push_neg at hfit
    rw [mallocInner_nofit h w bs hshape (fun b hb => hfit b hb)] at hm
    simp at hm
  obtain ⟨pre, c, post, hbs, hpre0, hcfit⟩ := first_split hfit
  have hpre : ∀ b ∈ pre, b.size < w := fun b hb => lt_of_not_le (hpre0 b hb)
  obtain ⟨hc1, hc2, hc3, hc4, hc5⟩ := hok c (by simp [hbs])
  have hcsz : c.size ≤ 204800 := by
    have := hInv.end_span
    omega
  have hc31 : c.size < 2 ^ 31 := by omega
  have hfree32 : h.xFreeBytesRemaining < size_t_card := by omega
  have hpw := List.chain'_iff_pairwise.mp hch
  have hpwsplit := List.pairwise_append.mp (hbs ▸ hpw)
  have hcross : ∀ x ∈ pre, ∀ y ∈ c :: post, gapR x y := hpwsplit.2.2
  have hgapprec : ∀ x ∈ pre, gapR x c := fun x hx => hcross x hx c (by simp)
  have hgapcpost : ∀ y ∈ post, gapR c y :=
    (List.pairwise_cons.mp hpwsplit.2.1).1
  have hsumdec : h.xFreeBytesRemaining =
      (pre.map (·.size)).sum + c.size + (post.map (·.size)).sum := by
    rw [hsum, hbs]
    simp [List.map_append]
    omega
  have hspan := hInv.end_span
  have hlop := hInv.lo_pos
  have hlopc : 0 < c.addr := by omega
  by_cases hsp : heap_minimum_block_size < c.size - w
  · -- split case
    rw [mallocInner_eq_split h w lo bs pre post c hshape hbs hok hch hInv.lo_pos
        hspan hpre hv hwpos hwle hsp] at hm
    rw [Prod.mk.injEq] at hm
    obtain ⟨hh1, hp⟩ := hm
    rw [Option.some.injEq] at hp
    have hpv : p = c.addr + size_of_heap_block_linklist_element := hp.symm
    subst hh1
    subst hf
    have hpne : p ≠ 0 := by rw [hpv]; omega
    have hhdr : p - size_of_heap_block_linklist_element = c.addr := by
      rw [hpv]; omega
    unfold vPortFree
    rw [if_pos hpne, hhdr]
    have hlk : lookupAlloc
        ((⟨c.addr, w ||| heapBLOCK_ALLOCATED_BITMASK⟩ : BlockLink_t) :: h.allocated)
        c.addr = some (w ||| heapBLOCK_ALLOCATED_BITMASK) := by
      unfold lookupAlloc
      simp
    simp only [hlk]
    rw [if_pos (or_bitmask_and_bit w), or_bitmask_and_low hw31]
    have hrmv : removeAlloc
        ((⟨c.addr, w ||| heapBLOCK_ALLOCATED_BITMASK⟩ : BlockLink_t) :: h.allocated)
        c.addr = h.allocated := by
      unfold removeAlloc
      simp
    rw [hrmv]
    unfold prvInsertBlockIntoFreeList
    simp only
    have hwc : w < c.size := by omega
    have hloop : insertLoop ⟨0, 0⟩
        ((pre ++ (⟨c.addr + w, c.size - w⟩ : BlockLink_t) :: post) ++ [(⟨h.pxEndAddr, 0⟩ : BlockLink_t)])
        ⟨c.addr, w⟩ h.pxEndAddr =
        ⟨0, 0⟩ :: (pre ++ (⟨c.addr, add32 w (c.size - w)⟩ : BlockLink_t) :: (post ++ [(⟨h.pxEndAddr, 0⟩ : BlockLink_t)])) := by
      rw [show (pre ++ (⟨c.addr + w, c.size - w⟩ : BlockLink_t) :: post) ++ [(⟨h.pxEndAddr, 0⟩ : BlockLink_t)] =
            pre ++ (⟨c.addr + w, c.size - w⟩ : BlockLink_t) :: (post ++ [(⟨h.pxEndAddr, 0⟩ : BlockLink_t)]) by simp]
      exact insertLoop_rightmerge pre ⟨c.addr, w⟩ ⟨c.addr + w, c.size - w⟩
        (post ++ [(⟨h.pxEndAddr, 0⟩ : BlockLink_t)]) h.pxEndAddr
        (by intro a ha; have := hgapprec a ha; unfold gapR at this; simp only; omega)
        (by intro a ha; have := hgapprec a ha; unfold gapR at this; simp only; omega)
        (by simp only; omega)
        (by simp only; omega)
        rfl
        (by simp only; omega)
    rw [hloop]
    have hmerge : add32 w (c.size - w) = c.size := by
      rw [add32_eq (by omega)]
      omega
    rw [hmerge]
    have hceta : (⟨c.addr, c.size⟩ : BlockLink_t) = c := rfl
    rw [hceta]
    have hsub : sub32 h.xFreeBytesRemaining w = h.xFreeBytesRemaining - w :=
      sub32_eq hwle hfree32
    rw [hsub]
    have hadd : add32 (h.xFreeBytesRemaining - w) w = h.xFreeBytesRemaining := by
      rw [add32_eq (by omega)]
      omega
    refine ⟨hadd, ?_, ?_⟩
    · rw [hshape, hbs]
      simp
    · rw [hshape, hbs]
      simp
  · -- no-split case
    rw [mallocInner_eq_nosplit h w lo bs pre post c hshape hbs hok hInv.lo_pos
        hspan hpre hcfit hv hwpos hwle (by omega)] at hm
    rw [Prod.mk.injEq] at hm
    obtain ⟨hh1, hp⟩ := hm
    rw [Option.some.injEq] at hp
    have hpv : p = c.addr + size_of_heap_block_linklist_element := hp.symm
    subst hh1
    subst hf
    have hpne : p ≠ 0 := by rw [hpv]; omega
    have hhdr : p - size_of_heap_block_linklist_element = c.addr := by
      rw [hpv]; omega
    unfold vPortFree
    rw [if_pos hpne, hhdr]
    have hlk : lookupAlloc
        ((⟨c.addr, c.size ||| heapBLOCK_ALLOCATED_BITMASK⟩ : BlockLink_t) :: h.allocated)
        c.addr = some (c.size ||| heapBLOCK_ALLOCATED_BITMASK) := by
      unfold lookupAlloc
      simp
    simp only [hlk]
    rw [if_pos (or_bitmask_and_bit c.size), or_bitmask_and_low hc31]
    have hrmv : removeAlloc
        ((⟨c.addr, c.size ||| heapBLOCK_ALLOCATED_BITMASK⟩ : BlockLink_t) :: h.allocated)
        c.addr = h.allocated := by
      unfold removeAlloc
      simp
    rw [hrmv]
    unfold prvInsertBlockIntoFreeList
    simp only
    have hloop : insertLoop ⟨0, 0⟩
        ((pre ++ post) ++ [(⟨h.pxEndAddr, 0⟩ : BlockLink_t)])
        ⟨c.addr, c.size⟩ h.pxEndAddr =
        ⟨0, 0⟩ :: (pre ++ (⟨c.addr, c.size⟩ : BlockLink_t) :: (post ++ [(⟨h.pxEndAddr, 0⟩ : BlockLink_t)])) := by
      rw [show (pre ++ post) ++ [(⟨h.pxEndAddr, 0⟩ : BlockLink_t)] =
            pre ++ (post ++ [(⟨h.pxEndAddr, 0⟩ : BlockLink_t)]) by simp]
      apply insertLoop_nomerge
      · intro a ha; have := hgapprec a ha; unfold gapR at this; simp only; omega
      · intro a ha; have := hgapprec a ha; unfold gapR at this; simp only; omega
      · simp only; omega
      · intro q hq
        rcases post with _ | ⟨c₂, post'⟩
        · simp at hq
          subst hq
          refine ⟨by simp only [not_lt]; omega, Or.inr rfl⟩
        · simp at hq
          subst hq
          have := hgapcpost c₂ (by simp)
          unfold gapR at this
          obtain ⟨hq1, hq2, hq3, hq4, hq5⟩ := hok c₂ (by simp [hbs])
          refine ⟨by simp only [not_lt]; omega, Or.inl (by simp only; omega)⟩
      · simp
    rw [hloop]
    have hceta : (⟨c.addr, c.size⟩ : BlockLink_t) = c := rfl
    rw [hceta]
    have hcle : c.size ≤ h.xFreeBytesRemaining := by omega
    have hsub : sub32 h.xFreeBytesRemaining c.size = h.xFreeBytesRemaining - c.size :=
      sub32_eq hcle hfree32
    rw [hsub]
    have hadd : add32 (h.xFreeBytesRemaining - c.size) c.size = h.xFreeBytesRemaining := by
      rw [add32_eq (by omega)]
      omega
    refine ⟨hadd, ?_, ?_⟩
    · rw [hshape, hbs]
      simp
    · rw [hshape, hbs]
      simp

/-- Witness for claim C7: allocating 100 bytes on a fresh heap and freeing
the returned pointer 16 restores the free byte count and the free list. -/
theorem claimC7_witness :
    (vPortFree (pvPortMalloc (Heap4.construct 8) 100).1 16).xFreeBytesRemaining =
      (Heap4.construct 8).xFreeBytesRemaining ∧
    (vPortFree (pvPortMalloc (Heap4.construct 8) 100).1 16).freeList =
      (Heap4.construct 8).freeList := by
  have hc := claimC7_malloc_free_roundtrip (alignedStart 8) (Heap4.construct 8)
    (pvPortMalloc (Heap4.construct 8) 100).1
    (vPortFree (pvPortMalloc (Heap4.construct 8) 100).1 16) 100 16
    (Reachable.init 8 (by decide) (by decide)) (by decide) rfl
  exact ⟨hc.1, hc.2.1⟩

/-- Claim C8: in every reachable state the allocation-bit-masked size of
every block — free (excluding the tail sentinel) or allocated — is a multiple
of the platform alignment and at least the minimum block size (twice one
aligned header size); this holds even for blocks handed out whole without a
split, so the claim's escape clause is never needed. -/
theorem claimC8_block_size_alignment (lo : Nat) (h : Heap4) (hr : Reachable lo h) :
    (∀ b ∈ h.freeList.dropLast,
        (b.size &&& (heapBLOCK_ALLOCATED_BITMASK - 1)) % portBYTE_ALIGNMENT = 0 ∧
        heap_minimum_block_size ≤ b.size &&& (heapBLOCK_ALLOCATED_BITMASK - 1)) ∧
    (∀ a ∈ h.allocated,
        (a.size &&& (heapBLOCK_ALLOCATED_BITMASK - 1)) % portBYTE_ALIGNMENT = 0 ∧
        heap_minimum_block_size ≤ a.size &&& (heapBLOCK_ALLOCATED_BITMASK - 1)) := by
  have hTOT : configTOTAL_HEAP_SIZE = 204800 := by decide
  have hInv := reachable_inv hr
  have hport : portBYTE_ALIGNMENT = 8 := rfl
  constructor
  · obtain ⟨bs, hshape, hok, _, _⟩ := hInv.shape
    rw [hshape, List.dropLast_concat]
    intro b hb
    obtain ⟨h1, h2, h3, h4, h5⟩ := hok b hb
    have hb31 : b.size < 2 ^ 31 := by
      have := hInv.end_span
      omega
    have hmask : b.size &&& (heapBLOCK_ALLOCATED_BITMASK - 1) = b.size := by
      rw [bitmask_eq]
      exact Nat.and_pow_two_sub_one_of_lt_two_pow hb31
    rw [hmask, hport]
    exact ⟨h4, h5⟩
  · intro a ha
    obtain ⟨m, hm1, hm2, hm3⟩ := hInv.alloc_ok a ha
    have hmask : a.size &&& (heapBLOCK_ALLOCATED_BITMASK - 1) = m := by
      rw [hm1]
      exact or_bitmask_and_low hm2
    rw [hmask, hport]
    exact ⟨hm3.2.2.2.1, hm3.2.2.2.2⟩

/-- Witness for claim C8 at a freshly constructed heap. -/
theorem claimC8_witness :
    (∀ b ∈ (Heap4.construct 8).freeList.dropLast,
        (b.size &&& (heapBLOCK_ALLOCATED_BITMASK - 1)) % portBYTE_ALIGNMENT = 0 ∧
        heap_minimum_block_size ≤ b.size &&& (heapBLOCK_ALLOCATED_BITMASK - 1)) ∧
    (∀ a ∈ (Heap4.construct 8).allocated,
        (a.size &&& (heapBLOCK_ALLOCATED_BITMASK - 1)) % portBYTE_ALIGNMENT = 0 ∧
        heap_minimum_block_size ≤ a.size &&& (heapBLOCK_ALLOCATED_BITMASK - 1)) :=
  claimC8_block_size_alignment (alignedStart 8) (Heap4.construct 8)
    (Reachable.init 8 (by decide) (by decide))

/-- Claim C9: in every reachable state the low-water mark
`xMinimumEverFreeBytesRemaining` is at most `xFreeBytesRemaining`; no Malloc
or Free call ever increases it; and construction sets it equal to the initial
free size. -/
theorem claimC9_low_water_mark :
    (∀ (lo : Nat) (h : Heap4), Reachable lo h →
        h.xMinimumEverFreeBytesRemaining ≤ h.xFreeBytesRemaining) ∧
    (∀ (h : Heap4) (op : HeapOp),
        (applyOp h op).xMinimumEverFreeBytesRemaining ≤
          h.xMinimumEverFreeBytesRemaining) ∧
    (∀ base : Nat, (Heap4.construct base).xMinimumEverFreeBytesRemaining =
        (Heap4.construct base).xFreeBytesRemaining) := by
  refine ⟨?_, ?_, ?_⟩
  · intro lo h hr
    exact (reachable_inv hr).min_le
  · intro h op
    cases op with
    | malloc n => exact malloc_min_mono h n
    | free p => exact le_of_eq (free_min_eq h p)
  · intro base
    rfl

/-- Witness for claim C9 at a freshly constructed heap and a malloc step. -/
theorem claimC9_witness :
    (Heap4.construct 8).xMinimumEverFreeBytesRemaining ≤
      (Heap4.construct 8).xFreeBytesRemaining ∧
    (applyOp (Heap4.construct 8) (HeapOp.malloc 100)).xMinimumEverFreeBytesRemaining ≤
      (Heap4.construct 8).xMinimumEverFreeBytesRemaining ∧
    (Heap4.construct 8).xMinimumEverFreeBytesRemaining =
      (Heap4.construct 8).xFreeBytesRemaining :=
  ⟨claimC9_low_water_mark.1 (alignedStart 8) (Heap4.construct 8)
      (Reachable.init 8 (by decide) (by decide)),
   claimC9_low_water_mark.2.1 (Heap4.construct 8) (HeapOp.malloc 100),
   claimC9_low_water_mark.2.2 8⟩

/-- Claim C10: when the free list contains no blocks besides the tail
sentinel (heap fully allocated), the stats query reports zero free blocks and
zero largest free block, but reports the smallest free block as
`portMAX_DELAY` (the initial scan value, the maximum representable counter
value 0xFFFFFFFF) rather than 0. -/
theorem claimC10_stats_fully_allocated (h : Heap4) (hfull : h.freeList = [⟨h.pxEndAddr, 0⟩]) :
    (vPortGetHeapStats h).xNumberOfFreeBlocks = 0 ∧
    (vPortGetHeapStats h).xSizeOfLargestFreeBlockInBytes = 0 ∧
    (vPortGetHeapStats h).xSizeOfSmallestFreeBlockInBytes = portMAX_DELAY ∧
    portMAX_DELAY = 4294967295 ∧
    (vPortGetHeapStats h).xSizeOfSmallestFreeBlockInBytes ≠ 0 := by
  unfold vPortGetHeapStats
  rw [hfull]
  unfold statsWalk
  simp
  exact ⟨by decide, by decide⟩

/-- Witness for claim C10 on a concrete fully-allocated heap state. -/
theorem claimC10_witness :
    (vPortGetHeapStats ⟨[⟨16, 0⟩], 16, [], 0, 0, 0, 0⟩).xNumberOfFreeBlocks = 0 ∧
    (vPortGetHeapStats ⟨[⟨16, 0⟩], 16, [], 0, 0, 0, 0⟩).xSizeOfLargestFreeBlockInBytes = 0 ∧
    (vPortGetHeapStats ⟨[⟨16, 0⟩], 16, [], 0, 0, 0, 0⟩).xSizeOfSmallestFreeBlockInBytes =
      portMAX_DELAY ∧
    portMAX_DELAY = 4294967295 ∧
    (vPortGetHeapStats ⟨[⟨16, 0⟩], 16, [], 0, 0, 0, 0⟩).xSizeOfSmallestFreeBlockInBytes ≠ 0 :=
  claimC10_stats_fully_allocated ⟨[⟨16, 0⟩], 16, [], 0, 0, 0, 0⟩ rfl

end FreertosHeap4

